import Mathlib

/-!
# mxj: pretty printing of `map[string]interface{}` trees

A shallow embedding of `vendor/github.com/clbanning/mxj/mxj.go`:
the two recursive printers `writeMap` / `writeMapNoTypes`, their entry points
`StringIndent` / `StringIndentNoTypeInfo`, and the `mapList` sort interface.

Conventions of the embedding.

* A Go `string` is a Lean `String`.  On such strings Go's byte-wise comparison
  of the UTF-8 encodings agrees with the comparison of the code point
  sequences, which is what `strGreater` computes.
* A Go `interface{}` value is a `Value`; the constructor records the dynamic
  type, because that is what the type switches inspect.
* A Go `map[string]interface{}` is the list of its (key, value) pairs in the
  order in which one `range` loop visits them.  Go leaves that order
  unspecified, so statements about maps quantify over the list order.  Keys of
  a Go map are unique; that is the predicate `Value.uniqueKeys`.
* A failed type assertion `m.(T)` panics; `writeMap` therefore returns an
  `Option String`, `none` standing for the panic.  `writeMapNoTypes` contains
  no assertion that can fail and returns a `String`.
* `offset ...int` is a `List Int`.  The increment `indent+1` is not reduced
  modulo `2^63`: it can only overflow when `indent = 2^63 - 1`, where the
  indentation loop of the same call would have to append `2^63 - 1` times.
-/

namespace mxj

/-! ## Values -/

/-- A Go `float64`, given by its IEEE-754 binary64 bit pattern (read modulo `2^64`). -/
structure Float64 where
  bits : Nat
deriving DecidableEq

/-- A Go `interface{}` value, by dynamic type.  `float32` and `other` carry the
text that `fmt` prints for the value under `%#v`, which is all the printers can
observe of them. -/
inductive Value where
  | nil
  | string (s : String)
  | int (n : Int)
  | int32 (n : Int)
  | int64 (n : Int)
  | float64 (x : Float64)
  | float32 (goSyntax : String)
  | bool (b : Bool)
  | slice (l : List Value)
  | map (m : List (String × Value))
  | other (goSyntax : String)

/-- The Go type `Map`, i.e. `map[string]interface{}`. -/
abbrev Map := List (String × Value)

/-- Allocate a Map. -/
def New : Map := []

/-! ## Standard library functions used by the printers

`strconv`, `fmt` and `sort` are not part of the repository; the functions below
follow their documented behaviour. -/

/-- Modelled from the spec: `strconv.FormatInt(i, 10)`, the decimal
representation of `i` ("scalar integer → decimal representation"). -/
def FormatInt (i : Int) : String :=
  if i < 0 then "-" ++ Nat.repr i.natAbs else Nat.repr i.natAbs

/-- Modelled from the spec: `strconv.Itoa(i)` is `strconv.FormatInt(int64(i), 10)`. -/
def Itoa (i : Int) : String := FormatInt i

/-- Modelled from the spec: `strconv.FormatBool` ("scalar boolean → "true"/"false""). -/
def FormatBool (b : Bool) : String := if b then "true" else "false"

/-- Sign bit of a `float64`. -/
def Float64.neg (x : Float64) : Bool := x.bits / 2 ^ 63 % 2 == 1

/-- Biased exponent field of a `float64` (11 bits). -/
def Float64.exp (x : Float64) : Nat := x.bits / 2 ^ 52 % 2048

/-- Fraction field of a `float64` (52 bits). -/
def Float64.mant (x : Float64) : Nat := x.bits % 2 ^ 52

/-- Neither an infinity nor a NaN. -/
def Float64.isFinite (x : Float64) : Bool := x.exp != 2047

/-- Scale the fraction `n / d` by powers of ten until `100 ≤ n / d < 1000`,
counting the decimal exponent. -/
def normalize : Nat → Nat → Nat → Int → Nat × Nat × Int
  | 0, n, d, e => (n, d, e)
  | fuel + 1, n, d, e =>
    if 1000 * d ≤ n then normalize fuel n (10 * d) (e + 1)
    else if n < 100 * d then normalize fuel (10 * n) d (e - 1)
    else (n, d, e)

/-- Round `n / d` (already in `[100, 1000)`) to the nearest integer, ties to
even, renormalising when the result reaches `1000`. -/
def round3 (n d : Nat) (e : Int) : Nat × Int :=
  let q := n / d
  let r := n % d
  let q := if d < 2 * r ∨ (2 * r = d ∧ q % 2 = 1) then q + 1 else q
  if q = 1000 then (100, e + 1) else (q, e)

/-- Exponent part of the `%e` format: at least two digits. -/
def fmtExp (k : Nat) : String :=
  if k < 10 then String.mk ['0', Nat.digitChar k]
  else if k < 100 then String.mk [Nat.digitChar (k / 10), Nat.digitChar (k % 10)]
  else String.mk [Nat.digitChar (k / 100), Nat.digitChar (k / 10 % 10), Nat.digitChar (k % 10)]

/-- The `%e` layout with precision 2: `-d.dde±dd` from the three digits `q` and the
decimal exponent `e`. -/
def fmtE (neg : Bool) (q : Nat) (e : Int) : String :=
  (if neg then "-" else "") ++
    String.mk [Nat.digitChar (q / 100 % 10), '.', Nat.digitChar (q / 10 % 10),
      Nat.digitChar (q % 10), 'e', if e < 0 then '-' else '+'] ++
    fmtExp e.natAbs

/-- Modelled from the spec: `strconv.FormatFloat(x, 'e', 2, 64)` ("scientific
notation with fixed 2-digit mantissa precision (e.g. exponential form d.dde±dd)"):
the exact value of `x` correctly rounded to three significant decimal digits. -/
def FormatFloat (x : Float64) : String :=
  if x.exp = 2047 then
    if x.mant ≠ 0 then "NaN" else if x.neg then "-Inf" else "+Inf"
  else
    let m := if x.exp = 0 then x.mant else x.mant + 2 ^ 52
    let e2 : Int := if x.exp = 0 then -1074 else (x.exp : Int) - 1075
    if m = 0 then fmtE x.neg 0 0
    else
      let r := normalize 700 (m * 2 ^ e2.toNat) (2 ^ (-e2).toNat) 2
      let qe := round3 r.1 r.2.1 r.2.2
      fmtE x.neg qe.1 qe.2

/-! ## The sort interface `mapList` -/

/-- Go's `a > b` on strings. -/
def strGreater (a b : String) : Bool := decide (b.toList < a.toList)

/-- The Go type `mapList`, i.e. `[][2]string`: (key, rendered value) pairs. -/
abbrev mapList := List (String × String)

/-- Length of the list. -/
def mapList.Len (ml : mapList) : Nat := ml.length

/-- Exchange the entries at `i` and `j`. -/
def mapList.Swap (ml : mapList) (i j : Nat) : mapList :=
  (ml.set i (ml.getD j default)).set j (ml.getD i default)

/-- Compare the keys at `i` and `j`: false exactly when key `i` is greater. -/
def mapList.Less (ml : mapList) (i j : Nat) : Bool :=
  if strGreater (ml.getD i default).1 (ml.getD j default).1 then false else true

/-- Inner loop of insertion sort:
`for j := i; j > 0 && data.Less(j, j-1); j-- { data.Swap(j, j-1) }`. -/
def insertionInner (ml : mapList) : Nat → mapList
  | 0 => ml
  | j + 1 => if ml.Less (j + 1) j then insertionInner (ml.Swap (j + 1) j) j else ml

/-- Outer loop of insertion sort, `for i := ...; i < n; i++`, with `todo = n - i`
iterations left. -/
def insertionOuter (ml : mapList) (i : Nat) : Nat → mapList
  | 0 => ml
  | todo + 1 => insertionOuter (insertionInner ml i) (i + 1) todo

/-- Modelled from the spec: `sort.Sort(data)` of the Go standard library ("sort
pairs by KeyOrdering"), as an insertion sort that touches the data only through
`Len`, `Less` and `Swap`. -/
def sortSort (ml : mapList) : mapList := insertionOuter ml 1 (ml.Len - 1)

/-! ## The printers -/

/-- The prologue `if len(offset) == 1 { indent = offset[0] }`. -/
def indentOf (offset : List Int) : Int :=
  match offset with
  | [x] => x
  | _ => 0

/-- The loop `for i := 0; i < indent; i++ { s += "  " }`, with `n` iterations left. -/
def indentLoop (s : String) : Nat → String
  | 0 => s
  | n + 1 => indentLoop (s ++ "  ") n

/-- The inner switch of the slice loops: `case string, float64, bool`. -/
def Value.breaksLine : Value → Bool
  | .string _ => true
  | .float64 _ => true
  | .bool _ => true
  | _ => false

/-- The loop over the sorted list that emits the entries of a mapping. -/
def emitList (root : Bool) (indent : Int) : mapList → String → String
  | [], s => s
  | v :: rest, s =>
    let s := if !root then s ++ "\n" else s
    let s := indentLoop s indent.toNat
    emitList root indent rest (s ++ (v.1 ++ " :" ++ v.2))

mutual
/-- Dump of a value with type tags; `none` is a failed type assertion. -/
def writeMap (m : Value) (root : Bool) (offset : List Int) : Option String :=
  match m with
  | .nil => some "[nil] nil"
  | .string s => some ("[string] " ++ s)
  | .int n => some ("[int] " ++ Itoa n)
  | .int32 _ => none
  | .int64 _ => none
  | .float64 x => some ("[float64] " ++ FormatFloat x)
  | .float32 _ => none
  | .bool b => some ("[bool] " ++ FormatBool b)
  | .slice l => writeMapSlice l (indentOf offset) 0 "[[]interface\x7b\x7d]"
  | .map mp =>
    match writeMapCollect mp (indentOf offset) with
    | none => none
    | some list => some (emitList root (indentOf offset) (sortSort list) "")
  | .other g => some ("[unknown] " ++ g)
/-- The loop `for i, v := range m.([]interface{})` of `writeMap`, at index `i`
with accumulator `s`. -/
def writeMapSlice (l : List Value) (indent : Int) (i : Nat) (s : String) : Option String :=
  match l with
  | [] => some s
  | v :: rest =>
    let s := s ++ "\n"
    let s := indentLoop s indent.toNat
    let s := s ++ ("[item: " ++ FormatInt i ++ "]")
    let s := if v.breaksLine then s ++ "\n" else s
    let s := indentLoop s indent.toNat
    match writeMap v false [indent + 1] with
    | none => none
    | some r => writeMapSlice rest indent (i + 1) (s ++ r)
/-- The loop `for k, v := range m.(map[string]interface{})` of `writeMap` that
fills `list`. -/
def writeMapCollect (mp : List (String × Value)) (indent : Int) : Option mapList :=
  match mp with
  | [] => some []
  | (k, v) :: rest =>
    match writeMap v false [indent + 1] with
    | none => none
    | some r =>
      match writeMapCollect rest indent with
      | none => none
      | some list => some ((k, r) :: list)
end

mutual
/-- Dump of a value without type tags. -/
def writeMapNoTypes (m : Value) (root : Bool) (offset : List Int) : String :=
  match m with
  | .nil => "nil"
  | .string s => s
  | .float64 x => FormatFloat x
  | .bool b => FormatBool b
  | .slice l => writeMapNoTypesSlice l (indentOf offset) 0 ""
  | .map mp => emitList root (indentOf offset) (sortSort (writeMapNoTypesCollect mp (indentOf offset))) ""
  | .int n => "[?] " ++ FormatInt n
  | .int32 n => "[?] " ++ FormatInt n
  | .int64 n => "[?] " ++ FormatInt n
  | .float32 g => "[?] " ++ g
  | .other g => "[?] " ++ g
/-- The loop `for i, v := range m.([]interface{})` of `writeMapNoTypes`. -/
def writeMapNoTypesSlice (l : List Value) (indent : Int) (i : Nat) (s : String) : String :=
  match l with
  | [] => s
  | v :: rest =>
    let s := s ++ "\n"
    let s := indentLoop s indent.toNat
    let s := s ++ ("[" ++ FormatInt i ++ "]")
    let s := if v.breaksLine then s ++ "\n" else s
    let s := indentLoop s indent.toNat
    writeMapNoTypesSlice rest indent (i + 1) (s ++ writeMapNoTypes v false [indent + 1])
/-- The loop of `writeMapNoTypes` that fills `list`. -/
def writeMapNoTypesCollect (mp : List (String × Value)) (indent : Int) : mapList :=
  match mp with
  | [] => []
  | (k, v) :: rest => (k, writeMapNoTypes v false [indent + 1]) :: writeMapNoTypesCollect rest indent
end

/-- Pretty print a Map. -/
def StringIndent (mv : Map) (offset : List Int) : Option String :=
  writeMap (.map mv) true offset

/-- Pretty print a Map without the value type information - just key:value entries. -/
def StringIndentNoTypeInfo (mv : Map) (offset : List Int) : String :=
  writeMapNoTypes (.map mv) true offset

/-! ## Vocabulary of the statements -/

/-- Insertion of `x` into the reversed sorted part, as the inner loop performs it:
`x` travels past every entry that `Less` puts after it. -/
def insertDesc (x : String × String) : mapList → mapList
  | [] => [x]
  | y :: ys => if strGreater x.1 y.1 then x :: y :: ys else y :: insertDesc x ys

/-- A string of `n` spaces. -/
def spaces (n : Nat) : String := String.mk (List.replicate n ' ')

/-- One entry of a mapping as `emitList` writes it. -/
def entryText (root : Bool) (indent : Int) (v : String × String) : String :=
  (if root then "" else "\n") ++ spaces (2 * indent.toNat) ++ (v.1 ++ " :" ++ v.2)

/-- Concatenation of optional renders; a failed render makes the whole fail. -/
def concatM : List (Option String) → Option String
  | [] => some ""
  | none :: _ => none
  | some a :: rest => (concatM rest).map (fun t => a ++ t)

/-- One element of a sequence as the untyped loop writes it at depth `d`. -/
def itemTextNoTypes (d : Nat) (ie : Nat × Value) : String :=
  "\n" ++ spaces (2 * d) ++ "[" ++ FormatInt ie.1 ++ "]"
    ++ (match ie.2 with
        | .string _ => "\n"
        | .float64 _ => "\n"
        | .bool _ => "\n"
        | _ => "")
    ++ spaces (2 * d) ++ writeMapNoTypes ie.2 false [(d : Int) + 1]

mutual
/-- Every mapping inside the value has pairwise distinct keys, as every Go map has. -/
def Value.uniqueKeys : Value → Bool
  | .slice l => uniqueKeysSlice l
  | .map m => decide ((m.map Prod.fst).Nodup) && uniqueKeysMap m
  | _ => true
/-- All elements of a sequence satisfy `uniqueKeys`. -/
def uniqueKeysSlice : List Value → Bool
  | [] => true
  | v :: rest => v.uniqueKeys && uniqueKeysSlice rest
/-- All values of a pair list satisfy `uniqueKeys`. -/
def uniqueKeysMap : List (String × Value) → Bool
  | [] => true
  | (_, v) :: rest => v.uniqueKeys && uniqueKeysMap rest
end

/-- Two values that differ only in the order in which mappings list their pairs:
the closure of "the pair list of a mapping is permuted" under replacing an
element of a sequence or a value of a mapping, at any depth. -/
inductive Reorder : Value → Value → Prop
  | refl (v : Value) : Reorder v v
  | perm {m m' : Map} : m.Perm m' → Reorder (.map m) (.map m')
  | inSlice {v w : Value} (l₁ l₂ : List Value) :
      Reorder v w → Reorder (.slice (l₁ ++ v :: l₂)) (.slice (l₁ ++ w :: l₂))
  | inMap {v w : Value} (k : String) (m₁ m₂ : Map) :
      Reorder v w → Reorder (.map (m₁ ++ (k, v) :: m₂)) (.map (m₁ ++ (k, w) :: m₂))
  | trans {a b c : Value} : Reorder a b → Reorder b c → Reorder a c

/-- The value denoted by a string of decimal digits. -/
def decimalValue (l : List Char) : Nat := l.foldl (fun a c => 10 * a + (c.toNat - 48)) 0

/-- The part of the `%e` layout after an optional minus sign: one digit, a point,
exactly two digits, `e`, a sign and two or more digits. -/
def sciDigits : List Char → Bool
  | d1 :: '.' :: d2 :: d3 :: 'e' :: sg :: es =>
    d1.isDigit && d2.isDigit && d3.isDigit && (sg == '+' || sg == '-')
      && decide (2 ≤ es.length) && es.all Char.isDigit
  | _ => false

/-- Scientific notation with two digits after the point, `d.dde±dd`, possibly
preceded by a minus sign. -/
def isScientific (s : String) : Bool :=
  sciDigits s.toList ||
    (match s.toList with
     | c :: rest => c == '-' && sciDigits rest
     | [] => false)

/-- The digit before the point is not `0`, unless the text is `0.00e+00`. -/
def sciLeading : List Char → Bool
  | d1 :: '.' :: d2 :: d3 :: 'e' :: sg :: es =>
    d1 != '0' || (d2 == '0' && d3 == '0' && sg == '+' && es == ['0', '0'])
  | _ => false

/-- The mantissa is normalised: its leading digit is zero only for the number zero. -/
def isNormalized (s : String) : Bool :=
  sciLeading s.toList ||
    (match s.toList with
     | c :: rest => c == '-' && sciLeading rest
     | [] => false)

/-- The fraction `n / d` lies in `[100, 1000)`. -/
def Normalized (r : Nat × Nat × Int) : Prop :=
  100 * r.2.1 ≤ r.1 ∧ r.1 < 1000 * r.2.1 ∧ 0 < r.2.1

/-- Serialise a Map and parse the result back.  The collaborators `mv.Json()` and
`NewMapJson` are defined elsewhere in the package and are parameters here; they
may have effects, so each acts on a state `σ`.  A Go `error` is an `Option ε`
and a possibly nil `Map` an `Option Map`, `none` being `nil`. -/
def Copy {σ ε β : Type} (Json : Map → σ → (β × Option ε) × σ)
    (NewMapJson : β → σ → (Option Map × Option ε) × σ) (mv : Map) (st : σ) :
    (Option Map × Option ε) × σ :=
  match Json mv st with
  | ((_, some jerr), st1) => ((none, some jerr), st1)
  | ((j, none), st1) => NewMapJson j st1

/-- The string contains a line break. -/
def hasNewline (s : String) : Bool := decide ('\n' ∈ s.data)

/-- The string ends with a line break. -/
def endsWithNewline (s : String) : Bool := s.data.getLast? == some '\n'

/-- One element of a sequence as the typed loop writes it at depth `d`, given the
render `r` of the element. -/
def itemText (d : Nat) (ie : Nat × Value) (r : String) : String :=
  "\n" ++ spaces (2 * d) ++ "[item: " ++ FormatInt ie.1 ++ "]"
    ++ (match ie.2 with
        | .string _ => "\n"
        | .float64 _ => "\n"
        | .bool _ => "\n"
        | _ => "")
    ++ spaces (2 * d) ++ r

mutual
/-- The value is built only from nil, strings, `int`s, float64s, booleans,
sequences and mappings, and none of its string scalars ends with a line break. -/
def Value.plain : Value → Bool
  | .nil => true
  | .string s => !endsWithNewline s
  | .int _ => true
  | .float64 _ => true
  | .bool _ => true
  | .slice l => plainSlice l
  | .map m => plainMap m
  | _ => false
/-- All elements of a sequence are `plain`. -/
def plainSlice : List Value → Bool
  | [] => true
  | v :: rest => v.plain && plainSlice rest
/-- All values of a pair list are `plain`. -/
def plainMap : List (String × Value) → Bool
  | [] => true
  | (_, v) :: rest => v.plain && plainMap rest
end

/-- Insert two spaces after every line break of a character list. -/
def shiftChars : List Char → List Char
  | [] => []
  | c :: cs => if c = '\n' then '\n' :: ' ' :: ' ' :: shiftChars cs else c :: shiftChars cs

/-- Insert two spaces immediately after every line break and change nothing else. -/
def indentShift (s : String) : String := String.mk (shiftChars s.data)

mutual
/-- The value is built only from nil, strings, `int`s, float64s, booleans,
sequences and mappings, no string and no key contains a line break, and every
element of every sequence is a string, a float64 or a boolean. -/
def Value.shiftable : Value → Bool
  | .nil => true
  | .string s => !hasNewline s
  | .int _ => true
  | .float64 _ => true
  | .bool _ => true
  | .slice l => shiftableSlice l
  | .map m => shiftableMap m
  | _ => false
/-- All elements of a sequence break the line and are `shiftable`. -/
def shiftableSlice : List Value → Bool
  | [] => true
  | v :: rest => v.breaksLine && v.shiftable && shiftableSlice rest
/-- All keys of a pair list are free of line breaks and all values `shiftable`. -/
def shiftableMap : List (String × Value) → Bool
  | [] => true
  | (k, v) :: rest => !hasNewline k && v.shiftable && shiftableMap rest
end

/-- The magnitude of a finite `float64` as a rational number (IEEE-754 binary64):
`mant * 2^-1074` for a subnormal, `(2^52 + mant) * 2^(exp - 1075)` otherwise. -/
def Float64.magnitude (x : Float64) : ℚ :=
  if x.exp = 0 then (x.mant : ℚ) * 2 ^ (-1074 : ℤ)
  else ((x.mant : ℚ) + 2 ^ 52) * 2 ^ ((x.exp : ℤ) - 1075)

/-- The three digits `q` and the decimal exponent `e` are `v` correctly rounded to
three significant decimal digits, ties to even: zero gives `0` and `0`; a positive
`v` in the decade `10^e0 ≤ v < 10^(e0+1)` gives the integer `q0` nearest to
`v / 10^(e0-2)` (the even one of two nearest), carried into the next decade when
`q0` reaches `1000`. -/
def RoundsTo (v : ℚ) (q : ℕ) (e : ℤ) : Prop :=
  (v = 0 ∧ q = 0 ∧ e = 0) ∨
  (0 < v ∧ ∃ (e0 : ℤ) (q0 : ℕ), (10 : ℚ) ^ e0 ≤ v ∧ v < (10 : ℚ) ^ (e0 + 1) ∧
      |(q0 : ℚ) - v / (10 : ℚ) ^ (e0 - 2)| ≤ 1 / 2 ∧
      (|(q0 : ℚ) - v / (10 : ℚ) ^ (e0 - 2)| = 1 / 2 → q0 % 2 = 0) ∧
      q = (if q0 = 1000 then 100 else q0) ∧ e = (if q0 = 1000 then e0 + 1 else e0))

/-! ## Theorems -/

theorem strGreater_iff (a b : String) : strGreater a b = true ↔ b < a := by
  simp [strGreater, String.lt_iff_toList_lt]

theorem getD_mid_zero {α : Type} (l : List α) (a : α) (r : List α) (d : α) :
    (l ++ a :: r).getD l.length d = a := by
  induction l with
  | nil => rfl
  | cons x xs ih => simpa using ih

theorem getD_mid_one {α : Type} (l : List α) (a b : α) (r : List α) (d : α) :
    (l ++ a :: b :: r).getD (l.length + 1) d = b := by
  induction l with
  | nil => rfl
  | cons x xs ih => simpa using ih

theorem Swap_mid (l : mapList) (a b : String × String) (r : mapList) :
    mapList.Swap (l ++ a :: b :: r) (l.length + 1) l.length = l ++ b :: a :: r := by
  unfold mapList.Swap
  rw [getD_mid_zero, getD_mid_one]
  induction l with
  | nil => rfl
  | cons x xs ih => simp [ih]

theorem insertionInner_append (rp : mapList) (x : String × String) (post : mapList) :
    insertionInner (rp.reverse ++ x :: post) rp.length = (insertDesc x rp).reverse ++ post := by
  induction rp generalizing post with
  | nil => rfl
  | cons y ys ih =>
    have e : (y :: ys).reverse ++ x :: post = ys.reverse ++ y :: x :: post := by simp
    have hl : ys.length = ys.reverse.length := by simp
    rw [e, List.length_cons, insertionInner, mapList.Less]
    rw [hl, getD_mid_one, getD_mid_zero, Swap_mid, ← hl]
    by_cases h : strGreater x.1 y.1 = true
    · simp [h, insertDesc]
    · simp [h, insertDesc, ih]

theorem length_insertDesc (x : String × String) (l : mapList) :
    (insertDesc x l).length = l.length + 1 := by
  induction l with
  | nil => rfl
  | cons y ys ih => unfold insertDesc; split <;> simp [ih]

theorem insertionOuter_append (rest rp : mapList) :
    insertionOuter (rp.reverse ++ rest) rp.length rest.length =
      (rest.foldl (fun acc x => insertDesc x acc) rp).reverse := by
  induction rest generalizing rp with
  | nil => simp [insertionOuter]
  | cons x xs ih =>
    rw [List.length_cons, insertionOuter, insertionInner_append, ← length_insertDesc x rp, ih]
    rfl

theorem sortSort_eq (ml : mapList) :
    sortSort ml = (ml.foldl (fun acc x => insertDesc x acc) []).reverse := by
  cases ml with
  | nil => rfl
  | cons x xs =>
    have := insertionOuter_append xs [x]
    simpa [sortSort, mapList.Len, insertDesc] using this

theorem perm_insertDesc (x : String × String) (l : mapList) : (insertDesc x l).Perm (x :: l) := by
  induction l with
  | nil => exact List.Perm.refl _
  | cons y ys ih =>
    unfold insertDesc
    split
    · exact List.Perm.refl _
    · exact (List.Perm.cons y ih).trans (List.Perm.swap x y ys)

theorem perm_foldl_insertDesc (l acc : mapList) :
    (l.foldl (fun acc x => insertDesc x acc) acc).Perm (l ++ acc) := by
  induction l generalizing acc with
  | nil => exact List.Perm.refl _
  | cons x xs ih =>
    rw [List.foldl_cons]
    refine (ih _).trans ?_
    refine (List.Perm.append_left xs (perm_insertDesc x acc)).trans ?_
    simp

theorem sortSort_perm (ml : mapList) : (sortSort ml).Perm ml := by
  rw [sortSort_eq]
  refine (List.reverse_perm _).trans ?_
  simpa using perm_foldl_insertDesc ml []

theorem pairwise_insertDesc (x : String × String) (l : mapList)
    (h : l.Pairwise (fun a b => b.1 ≤ a.1)) :
    (insertDesc x l).Pairwise (fun a b => b.1 ≤ a.1) := by
  induction l with
  | nil => simp [insertDesc]
  | cons y ys ih =>
    rw [List.pairwise_cons] at h
    unfold insertDesc
    split
    · rename_i hg
      rw [strGreater_iff] at hg
      refine List.pairwise_cons.2 ⟨?_, List.pairwise_cons.2 h⟩
      intro a ha
      rcases List.mem_cons.1 ha with rfl | ha
      · exact le_of_lt hg
      · exact le_trans (h.1 a ha) (le_of_lt hg)
    · rename_i hg
      rw [strGreater_iff, not_lt] at hg
      refine List.pairwise_cons.2 ⟨?_, ih h.2⟩
      intro a ha
      rcases List.mem_cons.1 ((perm_insertDesc x ys).subset ha) with rfl | ha
      · exact hg
      · exact h.1 a ha

theorem pairwise_foldl_insertDesc (l acc : mapList)
    (h : acc.Pairwise (fun a b => b.1 ≤ a.1)) :
    (l.foldl (fun acc x => insertDesc x acc) acc).Pairwise (fun a b => b.1 ≤ a.1) := by
  induction l generalizing acc with
  | nil => exact h
  | cons x xs ih => exact ih _ (pairwise_insertDesc x acc h)

/-- The output of `sortSort` is in ascending key order. -/
theorem sortSort_sorted (ml : mapList) : (sortSort ml).Pairwise (fun a b => a.1 ≤ b.1) := by
  rw [sortSort_eq, List.pairwise_reverse]
  exact pairwise_foldl_insertDesc ml [] List.Pairwise.nil

theorem pairwise_lt_of_le_of_nodup {α : Type} (l : List (String × α))
    (h : l.Pairwise (fun a b => a.1 ≤ b.1))
    (hn : (l.map Prod.fst).Nodup) : l.Pairwise (fun a b => a.1 < b.1) := by
  have hne : l.Pairwise (fun a b => a.1 ≠ b.1) := List.pairwise_map.1 hn
  exact (h.and hne).imp (fun hab => lt_of_le_of_ne hab.1 hab.2)

theorem eq_of_perm_of_pairwise_lt (l l' : mapList) (hp : l.Perm l')
    (h : l.Pairwise (fun a b => a.1 < b.1)) (h' : l'.Pairwise (fun a b => a.1 < b.1)) :
    l = l' := by
  haveI : IsAntisymm (String × String) (fun a b => a.1 < b.1) :=
    ⟨fun _ _ h1 h2 => absurd h1 (lt_asymm h2)⟩
  exact List.eq_of_perm_of_sorted hp h h'

theorem nodup_of_pairwise_lt {α : Type} (l : List (String × α))
    (h : l.Pairwise (fun a b => a.1 < b.1)) : (l.map Prod.fst).Nodup :=
  List.pairwise_map.2 (h.imp (fun hab => ne_of_lt hab))

/-- With unique keys the output of `sortSort` is the strictly ascending arrangement. -/
theorem sortSort_eq_of_sorted (ml srt : mapList) (hp : srt.Perm ml)
    (hs : srt.Pairwise (fun a b => a.1 < b.1)) : sortSort ml = srt := by
  have hperm : (sortSort ml).Perm srt := (sortSort_perm ml).trans hp.symm
  have hn : ((sortSort ml).map Prod.fst).Nodup :=
    ((hperm.map Prod.fst).nodup_iff).2 (nodup_of_pairwise_lt srt hs)
  exact eq_of_perm_of_pairwise_lt _ _ hperm
    (pairwise_lt_of_le_of_nodup _ (sortSort_sorted ml) hn) hs

/-- With unique keys `sortSort` does not depend on the order of its input. -/
theorem sortSort_congr_perm (l l' : mapList) (hp : l.Perm l') (hn : (l.map Prod.fst).Nodup) :
    sortSort l = sortSort l' := by
  apply sortSort_eq_of_sorted
  · exact (sortSort_perm l').trans hp.symm
  · refine pairwise_lt_of_le_of_nodup _ (sortSort_sorted l') ?_
    exact ((((sortSort_perm l').trans hp.symm).map Prod.fst).nodup_iff).2 hn

theorem join_foldl (l : List String) (acc : String) :
    List.foldl (fun r s => r ++ s) acc l = acc ++ String.join l := by
  induction l generalizing acc with
  | nil => simp [String.join]
  | cons a l ih =>
    have hj : String.join (a :: l) = List.foldl (fun r s => r ++ s) ("" ++ a) l := rfl
    rw [List.foldl_cons, ih, hj, ih]
    simp [String.append_assoc]

theorem join_cons (a : String) (l : List String) : String.join (a :: l) = a ++ String.join l := by
  rw [String.join, List.foldl_cons, join_foldl]
  simp

theorem join_nil : String.join [] = "" := rfl

theorem spaces_succ (n : Nat) : spaces (2 * (n + 1)) = "  " ++ spaces (2 * n) := by
  apply String.ext
  simp [spaces, Nat.mul_succ, List.replicate_succ]

theorem indentLoop_eq (s : String) (n : Nat) : indentLoop s n = s ++ spaces (2 * n) := by
  induction n generalizing s with
  | zero =>
    apply String.ext
    simp [indentLoop, spaces]
  | succ n ih => rw [indentLoop, ih, spaces_succ, String.append_assoc]

theorem emitList_eq (root : Bool) (indent : Int) (l : mapList) (s : String) :
    emitList root indent l s = s ++ String.join (l.map (entryText root indent)) := by
  induction l generalizing s with
  | nil => simp [emitList, join_nil]
  | cons v rest ih =>
    rw [emitList, ih, List.map_cons, join_cons, indentLoop_eq]
    cases root <;> simp [entryText, String.append_assoc]

theorem writeMapNoTypesCollect_eq (mp : Map) (indent : Int) :
    writeMapNoTypesCollect mp indent =
      mp.map (fun kv => (kv.1, writeMapNoTypes kv.2 false [indent + 1])) := by
  induction mp with
  | nil => simp [writeMapNoTypesCollect]
  | cons kv rest ih =>
    obtain ⟨k, v⟩ := kv
    simp [writeMapNoTypesCollect, ih]

theorem writeMapCollect_none (mp : Map) (indent : Int)
    (h : ∃ kv ∈ mp, writeMap kv.2 false [indent + 1] = none) :
    writeMapCollect mp indent = none := by
  induction mp with
  | nil => simp at h
  | cons kv rest ih =>
    obtain ⟨k, v⟩ := kv
    rw [writeMapCollect]
    cases hv : writeMap v false [indent + 1] with
    | none => rfl
    | some r =>
      have hr : ∃ kv ∈ rest, writeMap kv.2 false [indent + 1] = none := by
        obtain ⟨kv, hmem, hkv⟩ := h
        rcases List.mem_cons.1 hmem with rfl | hmem
        · simp [hv] at hkv
        · exact ⟨kv, hmem, hkv⟩
      simp [ih hr]

theorem writeMapCollect_some (mp : Map) (indent : Int)
    (h : ¬ ∃ kv ∈ mp, writeMap kv.2 false [indent + 1] = none) :
    writeMapCollect mp indent =
      some (mp.map (fun kv => (kv.1, (writeMap kv.2 false [indent + 1]).getD ""))) := by
  induction mp with
  | nil => simp [writeMapCollect]
  | cons kv rest ih =>
    obtain ⟨k, v⟩ := kv
    rw [writeMapCollect]
    cases hv : writeMap v false [indent + 1] with
    | none => exact absurd ⟨(k, v), List.mem_cons_self _ _, hv⟩ h
    | some r =>
      have hr : ¬ ∃ kv ∈ rest, writeMap kv.2 false [indent + 1] = none := by
        rintro ⟨kv, hmem, hkv⟩
        exact h ⟨kv, List.mem_cons_of_mem _ hmem, hkv⟩
      simp [ih hr, hv]

theorem concatM_none (l : Map) (f : String × Value → Option String)
    (h : ∃ kv ∈ l, f kv = none) : concatM (l.map f) = none := by
  induction l with
  | nil => simp at h
  | cons kv rest ih =>
    rw [List.map_cons]
    cases hv : f kv with
    | none => rfl
    | some r =>
      have hr : ∃ kv ∈ rest, f kv = none := by
        obtain ⟨kv', hmem, hkv⟩ := h
        rcases List.mem_cons.1 hmem with rfl | hmem
        · simp [hv] at hkv
        · exact ⟨kv', hmem, hkv⟩
      simp [concatM, ih hr]

theorem concatM_some (l : Map) (f : String × Value → Option String)
    (h : ¬ ∃ kv ∈ l, f kv = none) :
    concatM (l.map f) = some (String.join (l.map (fun kv => (f kv).getD ""))) := by
  induction l with
  | nil => simp [concatM, join_nil]
  | cons kv rest ih =>
    rw [List.map_cons]
    cases hv : f kv with
    | none => exact absurd ⟨kv, List.mem_cons_self _ _, hv⟩ h
    | some r =>
      have hr : ¬ ∃ kv ∈ rest, f kv = none := by
        rintro ⟨kv', hmem, hkv⟩
        exact h ⟨kv', List.mem_cons_of_mem _ hmem, hkv⟩
      simp [concatM, ih hr, hv, join_cons]

/-- Every mapping with unique keys has a strictly key-ascending arrangement. -/
theorem exists_ascending (m : Map) (hn : (m.map Prod.fst).Nodup) :
    ∃ srt : Map, srt.Perm m ∧ srt.Pairwise (fun a b => a.1 < b.1) := by
  haveI : IsTotal (String × Value) (fun a b => a.1 ≤ b.1) := ⟨fun a b => le_total a.1 b.1⟩
  haveI : IsTrans (String × Value) (fun a b => a.1 ≤ b.1) := ⟨fun _ _ _ h1 h2 => le_trans h1 h2⟩
  refine ⟨m.insertionSort (fun a b => a.1 ≤ b.1), List.perm_insertionSort _ m, ?_⟩
  apply pairwise_lt_of_le_of_nodup _ (List.sorted_insertionSort _ m)
  exact (((List.perm_insertionSort _ m).map Prod.fst).nodup_iff).2 hn

theorem writeMap_map_eq (m : Map) (root : Bool) (offset : List Int) :
    writeMap (.map m) root offset =
      (writeMapCollect m (indentOf offset)).map
        (fun list => emitList root (indentOf offset) (sortSort list) "") := by
  rw [writeMap]
  cases writeMapCollect m (indentOf offset) <;> rfl

theorem writeMapNoTypes_map_eq (m : Map) (root : Bool) (offset : List Int) :
    writeMapNoTypes (.map m) root offset =
      emitList root (indentOf offset)
        (sortSort (writeMapNoTypesCollect m (indentOf offset))) "" := by
  rw [writeMapNoTypes]

/-- C2: the non-root render of a mapping at depth `d` is the concatenation, over
the pairs in strictly ascending key order (`srt`, a rearrangement of the pairs of
`m`), of a line break, `2*d` spaces, the key, `" :"` and the render of that key's
value at depth `d+1`, in typed mode (where a failing render of a value fails the
whole) and in untyped mode. -/
theorem writeMap_map_nonroot (m srt : Map) (d : Nat)
    (hp : srt.Perm m) (hs : srt.Pairwise (fun a b => a.1 < b.1)) :
    writeMap (.map m) false [(d : Int)] =
        concatM (srt.map (fun kv => (writeMap kv.2 false [(d : Int) + 1]).map
          (fun r => "\n" ++ spaces (2 * d) ++ kv.1 ++ " :" ++ r)))
    ∧ writeMapNoTypes (.map m) false [(d : Int)] =
        String.join (srt.map (fun kv =>
          "\n" ++ spaces (2 * d) ++ kv.1 ++ " :" ++ writeMapNoTypes kv.2 false [(d : Int) + 1])) := by
  constructor
  · rw [writeMap_map_eq]
    simp only [indentOf]
    by_cases h : ∃ kv ∈ m, writeMap kv.2 false [(d : Int) + 1] = none
    · rw [writeMapCollect_none m d h, concatM_none]
      · rfl
      · obtain ⟨kv, hmem, hkv⟩ := h
        exact ⟨kv, hp.mem_iff.2 hmem, by simp [hkv]⟩
    · rw [writeMapCollect_some m d h, concatM_some]
      · have hsort : sortSort (m.map (fun kv => (kv.1, (writeMap kv.2 false [(d : Int) + 1]).getD "")))
            = srt.map (fun kv => (kv.1, (writeMap kv.2 false [(d : Int) + 1]).getD "")) := by
          apply sortSort_eq_of_sorted
          · exact hp.map _
          · exact List.pairwise_map.2 hs
        simp only [Option.map_some', hsort, emitList_eq, List.map_map]
        congr 1
        rw [String.empty_append]
        congr 1
        apply List.map_congr_left
        intro kv hkv
        cases hv : writeMap kv.2 false [(d : Int) + 1] with
        | none => exact absurd ⟨kv, hp.mem_iff.1 hkv, hv⟩ h
        | some r => simp [entryText, String.append_assoc, hv]
      · rintro ⟨kv, hmem, hkv⟩
        apply h
        refine ⟨kv, hp.mem_iff.1 hmem, ?_⟩
        cases hv : writeMap kv.2 false [(d : Int) + 1] with
        | none => rfl
        | some r => simp [hv] at hkv
  · rw [writeMapNoTypes_map_eq, writeMapNoTypesCollect_eq]
    simp only [indentOf]
    have hsort : sortSort (m.map (fun kv => (kv.1, writeMapNoTypes kv.2 false [(d : Int) + 1])))
        = srt.map (fun kv => (kv.1, writeMapNoTypes kv.2 false [(d : Int) + 1])) := by
      apply sortSort_eq_of_sorted
      · exact hp.map _
      · exact List.pairwise_map.2 hs
    rw [hsort, emitList_eq, String.empty_append, List.map_map]
    congr 1
    apply List.map_congr_left
    intro kv _
    simp [entryText, String.append_assoc]

/-- Witness of C2 on the mapping `{"b": 1, "a": 2}`: key `"a"` comes first. -/
theorem writeMap_map_nonroot_witness :
    writeMap (.map [("b", .int 1), ("a", .int 2)]) false [((0 : Nat) : Int)]
        = some "\na :[int] 2\nb :[int] 1"
    ∧ writeMapNoTypes (.map [("b", .int 1), ("a", .int 2)]) false [((0 : Nat) : Int)]
        = "\na :[?] 2\nb :[?] 1" :=
  have h := writeMap_map_nonroot [("b", .int 1), ("a", .int 2)] [("a", .int 2), ("b", .int 1)] 0
    (List.Perm.swap _ _ _)
    (by simp [String.lt_iff_toList_lt]; decide)
  ⟨h.1.trans (by decide), h.2.trans (by decide)⟩

theorem breaksLine_text (v : Value) :
    (match v with
      | .string _ => "\n"
      | .float64 _ => "\n"
      | .bool _ => "\n"
      | _ => "") = if v.breaksLine then "\n" else "" := by
  cases v <;> rfl

theorem writeMapNoTypesSlice_eq (l : List Value) (d i : Nat) (s : String) :
    writeMapNoTypesSlice l (d : Int) i s
      = s ++ String.join ((l.enumFrom i).map (itemTextNoTypes d)) := by
  induction l generalizing i s with
  | nil => simp [writeMapNoTypesSlice, join_nil]
  | cons v rest ih =>
    rw [writeMapNoTypesSlice, ih, List.enumFrom_cons, List.map_cons, join_cons]
    simp only [indentLoop_eq, itemTextNoTypes, breaksLine_text, Int.toNat_ofNat]
    cases v.breaksLine <;> simp [String.append_assoc]

/-- C10: the untyped render of a sequence at depth `d` is, for each position `i`
in order, a line break, `2*d` spaces, the label `[i]`, a line break exactly when
the element is a string, a float64 or a boolean, `2*d` spaces and the untyped
render of the element at depth `d+1`, and nothing else; the empty sequence renders
as the empty string. -/
theorem writeMapNoTypes_slice (l : List Value) (root : Bool) (d : Nat) :
    writeMapNoTypes (.slice l) root [(d : Int)]
        = String.join (l.enum.map (fun ie =>
            "\n" ++ spaces (2 * d) ++ "[" ++ FormatInt ie.1 ++ "]"
              ++ (match ie.2 with
                  | .string _ => "\n"
                  | .float64 _ => "\n"
                  | .bool _ => "\n"
                  | _ => "")
              ++ spaces (2 * d) ++ writeMapNoTypes ie.2 false [(d : Int) + 1]))
    ∧ writeMapNoTypes (.slice []) root [(d : Int)] = "" := by
  constructor
  · rw [writeMapNoTypes]
    simp only [indentOf]
    rw [writeMapNoTypesSlice_eq, String.empty_append]
    rfl
  · rfl

theorem uniqueKeysSlice_iff (l : List Value) :
    uniqueKeysSlice l = true ↔ ∀ v ∈ l, v.uniqueKeys = true := by
  induction l with
  | nil => simp [uniqueKeysSlice]
  | cons v rest ih => simp [uniqueKeysSlice, ih]

theorem uniqueKeysMap_iff (m : Map) :
    uniqueKeysMap m = true ↔ ∀ kv ∈ m, kv.2.uniqueKeys = true := by
  induction m with
  | nil => simp [uniqueKeysMap]
  | cons kv rest ih =>
    obtain ⟨k, v⟩ := kv
    simp [uniqueKeysMap, ih]

theorem uniqueKeys_map_iff (m : Map) :
    (Value.map m).uniqueKeys = true ↔
      (m.map Prod.fst).Nodup ∧ ∀ kv ∈ m, kv.2.uniqueKeys = true := by
  rw [Value.uniqueKeys, Bool.and_eq_true, uniqueKeysMap_iff, decide_eq_true_iff]

theorem uniqueKeys_slice_iff (l : List Value) :
    (Value.slice l).uniqueKeys = true ↔ ∀ v ∈ l, v.uniqueKeys = true := by
  rw [Value.uniqueKeys, uniqueKeysSlice_iff]

theorem writeMapSlice_congr (v w : Value) (l₂ : List Value) (indent : Int)
    (hb : v.breaksLine = w.breaksLine)
    (hr : ∀ root offset, writeMap v root offset = writeMap w root offset)
    (l₁ : List Value) (i : Nat) (s : String) :
    writeMapSlice (l₁ ++ v :: l₂) indent i s = writeMapSlice (l₁ ++ w :: l₂) indent i s := by
  induction l₁ generalizing i s with
  | nil =>
    simp only [List.nil_append]
    rw [writeMapSlice, writeMapSlice, hb, hr]
  | cons x xs ih =>
    simp only [List.cons_append]
    rw [writeMapSlice, writeMapSlice]
    cases writeMap x false [indent + 1] with
    | none => rfl
    | some r => exact ih _ _

theorem writeMapNoTypesSlice_congr (v w : Value) (l₂ : List Value) (indent : Int)
    (hb : v.breaksLine = w.breaksLine)
    (hr : ∀ root offset, writeMapNoTypes v root offset = writeMapNoTypes w root offset)
    (l₁ : List Value) (i : Nat) (s : String) :
    writeMapNoTypesSlice (l₁ ++ v :: l₂) indent i s
      = writeMapNoTypesSlice (l₁ ++ w :: l₂) indent i s := by
  induction l₁ generalizing i s with
  | nil =>
    simp only [List.nil_append]
    rw [writeMapNoTypesSlice, writeMapNoTypesSlice, hb, hr]
  | cons x xs ih =>
    simp only [List.cons_append]
    rw [writeMapNoTypesSlice, writeMapNoTypesSlice]
    exact ih _ _

theorem writeMapCollect_congr (v w : Value) (k : String) (m₂ : Map) (indent : Int)
    (hr : ∀ root offset, writeMap v root offset = writeMap w root offset) (m₁ : Map) :
    writeMapCollect (m₁ ++ (k, v) :: m₂) indent = writeMapCollect (m₁ ++ (k, w) :: m₂) indent := by
  induction m₁ with
  | nil =>
    simp only [List.nil_append]
    rw [writeMapCollect, writeMapCollect, hr]
  | cons x xs ih =>
    obtain ⟨kx, vx⟩ := x
    simp only [List.cons_append]
    rw [writeMapCollect, writeMapCollect, ih]

theorem writeMapCollect_perm (m m' : Map) (indent : Int) (hp : m.Perm m')
    (hn : (m.map Prod.fst).Nodup) :
    (writeMapCollect m indent).map sortSort = (writeMapCollect m' indent).map sortSort := by
  by_cases h : ∃ kv ∈ m, writeMap kv.2 false [indent + 1] = none
  · have h' : ∃ kv ∈ m', writeMap kv.2 false [indent + 1] = none := by
      obtain ⟨kv, hmem, hkv⟩ := h
      exact ⟨kv, hp.mem_iff.1 hmem, hkv⟩
    rw [writeMapCollect_none m indent h, writeMapCollect_none m' indent h']
  · have h' : ¬ ∃ kv ∈ m', writeMap kv.2 false [indent + 1] = none := by
      rintro ⟨kv, hmem, hkv⟩
      exact h ⟨kv, hp.mem_iff.2 hmem, hkv⟩
    rw [writeMapCollect_some m indent h, writeMapCollect_some m' indent h']
    simp only [Option.map_some', Option.some.injEq]
    apply sortSort_congr_perm
    · exact hp.map _
    · simpa [List.map_map, Function.comp_def] using hn

theorem reorder_invariant {v w : Value} (h : Reorder v w) :
    v.uniqueKeys = true →
      w.uniqueKeys = true ∧ v.breaksLine = w.breaksLine ∧
        ∀ root offset, writeMap v root offset = writeMap w root offset ∧
          writeMapNoTypes v root offset = writeMapNoTypes w root offset := by
  induction h with
  | refl v => exact fun hu => ⟨hu, rfl, fun _ _ => ⟨rfl, rfl⟩⟩
  | @perm m m' hp =>
    intro hu
    rw [uniqueKeys_map_iff] at hu
    refine ⟨?_, rfl, fun root offset => ⟨?_, ?_⟩⟩
    · rw [uniqueKeys_map_iff]
      exact ⟨((hp.map Prod.fst).nodup_iff).1 hu.1, fun kv hkv => hu.2 kv (hp.mem_iff.2 hkv)⟩
    · rw [writeMap_map_eq, writeMap_map_eq]
      have := writeMapCollect_perm m m' (indentOf offset) hp hu.1
      have e : ∀ o : Option mapList,
          o.map (fun list => emitList root (indentOf offset) (sortSort list) "")
            = (o.map sortSort).map (fun list => emitList root (indentOf offset) list "") := by
        intro o; cases o <;> rfl
      rw [e, e, this]
    · rw [writeMapNoTypes_map_eq, writeMapNoTypes_map_eq, writeMapNoTypesCollect_eq,
        writeMapNoTypesCollect_eq]
      congr 1
      apply sortSort_congr_perm
      · exact hp.map _
      · simpa [List.map_map, Function.comp_def] using hu.1
  | @inSlice v w l₁ l₂ _ ih =>
    intro hu
    rw [uniqueKeys_slice_iff] at hu
    obtain ⟨hw, hb, hr⟩ := ih (hu v (by simp))
    refine ⟨?_, rfl, fun root offset => ⟨?_, ?_⟩⟩
    · rw [uniqueKeys_slice_iff]
      intro x hx
      rcases List.mem_append.1 hx with hx | hx
      · exact hu x (by simp [hx])
      · rcases List.mem_cons.1 hx with rfl | hx
        · exact hw
        · exact hu x (by simp [hx])
    · rw [writeMap, writeMap]
      exact writeMapSlice_congr v w l₂ _ hb (fun r o => (hr r o).1) l₁ _ _
    · rw [writeMapNoTypes, writeMapNoTypes]
      exact writeMapNoTypesSlice_congr v w l₂ _ hb (fun r o => (hr r o).2) l₁ _ _
  | @inMap v w k m₁ m₂ _ ih =>
    intro hu
    rw [uniqueKeys_map_iff] at hu
    obtain ⟨hw, _, hr⟩ := ih (hu.2 (k, v) (by simp))
    refine ⟨?_, rfl, fun root offset => ⟨?_, ?_⟩⟩
    · rw [uniqueKeys_map_iff]
      refine ⟨by simpa using hu.1, ?_⟩
      intro x hx
      rcases List.mem_append.1 hx with hx | hx
      · exact hu.2 x (by simp [hx])
      · rcases List.mem_cons.1 hx with rfl | hx
        · exact hw
        · exact hu.2 x (by simp [hx])
    · rw [writeMap_map_eq, writeMap_map_eq,
        writeMapCollect_congr v w k m₂ _ (fun r o => (hr r o).1) m₁]
    · rw [writeMapNoTypes_map_eq, writeMapNoTypes_map_eq, writeMapNoTypesCollect_eq,
        writeMapNoTypesCollect_eq]
      simp [(hr false _).2]
  | trans _ _ ih₁ ih₂ =>
    intro hu
    obtain ⟨hb, hl, hr⟩ := ih₁ hu
    obtain ⟨hc, hl', hr'⟩ := ih₂ hb
    exact ⟨hc, hl.trans hl', fun root offset =>
      ⟨(hr root offset).1.trans (hr' root offset).1, (hr root offset).2.trans (hr' root offset).2⟩⟩

/-- C1: key-order invariance.  When `w` arises from `v` by permuting the pair
lists of mappings, at the top level or at any nested level, and the keys of every
mapping of `v` are unique, then for every root flag and every offset `writeMap`
gives the same result on `v` and `w`, and so does `writeMapNoTypes`. -/
theorem render_reorder (v w : Value) (h : Reorder v w) (hu : v.uniqueKeys = true)
    (root : Bool) (offset : List Int) :
    writeMap v root offset = writeMap w root offset ∧
      writeMapNoTypes v root offset = writeMapNoTypes w root offset :=
  (reorder_invariant h hu).2.2 root offset

/-- Witness of C1 on a mapping whose pairs are exchanged at the top level and
inside a mapping nested in a sequence. -/
theorem render_reorder_witness :
    writeMap (.map [("b", .slice [.map [("y", .nil), ("x", .bool true)]]), ("a", .string "s")])
        true [1]
      = writeMap (.map [("a", .string "s"), ("b", .slice [.map [("x", .bool true), ("y", .nil)]])])
        true [1]
    ∧ writeMapNoTypes
        (.map [("b", .slice [.map [("y", .nil), ("x", .bool true)]]), ("a", .string "s")])
        true [1]
      = writeMapNoTypes
        (.map [("a", .string "s"), ("b", .slice [.map [("x", .bool true), ("y", .nil)]])])
        true [1] :=
  render_reorder _ _
    (Reorder.trans
      (Reorder.inMap "b" [] [("a", .string "s")]
        (Reorder.inSlice [] [] (Reorder.perm (List.Perm.swap _ _ _))))
      (Reorder.perm (List.Perm.swap _ _ _)))
    (by decide) true [1]

theorem digitChar_facts (k : Nat) (h : k < 10) :
    (Nat.digitChar k).isDigit = true ∧ (Nat.digitChar k).toNat - 48 = k ∧
      (Nat.digitChar k = '0' → k = 0) := by
  interval_cases k <;> decide

theorem toDigitsCore_spec (fuel : Nat) : ∀ (n : Nat) (ds : List Char), n < fuel →
    ∃ pre, Nat.toDigitsCore 10 fuel n ds = pre ++ ds ∧ pre ≠ [] ∧
      (∀ c ∈ pre, c.isDigit = true) ∧ decimalValue pre = n ∧
      (pre.head? = some '0' → n = 0) := by
  induction fuel with
  | zero => intro n ds h; omega
  | succ fuel ih =>
    intro n ds h
    rw [Nat.toDigitsCore]
    by_cases h0 : n / 10 = 0
    · have hn : n < 10 := by omega
      have hm : n % 10 = n := Nat.mod_eq_of_lt hn
      obtain ⟨f1, f2, f3⟩ := digitChar_facts n hn
      refine ⟨[Nat.digitChar n], by simp [h0, hm], by simp, by simpa using f1, ?_, ?_⟩
      · simpa [decimalValue] using f2
      · simpa using f3
    · obtain ⟨pre, e, hne, hd, hv, hh⟩ := ih (n / 10) (Nat.digitChar (n % 10) :: ds) (by omega)
      obtain ⟨f1, f2, _⟩ := digitChar_facts (n % 10) (Nat.mod_lt _ (by decide))
      refine ⟨pre ++ [Nat.digitChar (n % 10)], by simp [h0, e], by simp, ?_, ?_, ?_⟩
      · intro c hc
        rcases List.mem_append.1 hc with hc | hc
        · exact hd c hc
        · rw [List.mem_singleton.1 hc]; exact f1
      · have : decimalValue (pre ++ [Nat.digitChar (n % 10)])
            = 10 * decimalValue pre + ((Nat.digitChar (n % 10)).toNat - 48) := by
          simp [decimalValue, List.foldl_append]
        rw [this, hv, f2]
        omega
      · intro hz
        have : pre.head? = some '0' := by
          cases pre with
          | nil => exact absurd rfl hne
          | cons a t => simpa using hz
        exact absurd (hh this) h0

/-- C5: the typed render of an integer `n` is `"[int] "` followed by the decimal
representation of `n`: a `-` exactly when `n` is negative, then decimal digits
that denote the absolute value of `n` and do not start with `0` unless `n = 0`. -/
theorem writeMap_int (n : Int) (root : Bool) (offset : List Int) :
    writeMap (.int n) root offset = some ("[int] " ++ Itoa n)
    ∧ ∃ digits : List Char,
        Itoa n = (if n < 0 then "-" else "") ++ String.mk digits ∧ digits ≠ [] ∧
        (∀ c ∈ digits, c.isDigit = true) ∧ decimalValue digits = n.natAbs ∧
        (digits.head? = some '0' → n = 0) := by
  refine ⟨by rw [writeMap], ?_⟩
  obtain ⟨pre, e, hne, hd, hv, hh⟩ := toDigitsCore_spec (n.natAbs + 1) n.natAbs [] (by omega)
  refine ⟨pre, ?_, hne, hd, hv, fun h => Int.natAbs_eq_zero.1 (hh h)⟩
  have hr : Nat.repr n.natAbs = String.mk pre := by
    simp [Nat.repr, Nat.toDigits, e, List.asString]
  unfold Itoa FormatInt
  split <;> simp [hr]

/-- C3, on the code: every entry of a root mapping is written without a line
break, so the entries of `{"a": "x", "b": "y"}` run together. -/
theorem StringIndent_root_two_keys :
    StringIndent [("a", .string "x"), ("b", .string "y")] [] = some "a :[string] xb :[string] y"
    ∧ StringIndentNoTypeInfo [("a", .string "x"), ("b", .string "y")] [] = "a :xb :y"
    ∧ StringIndent [("a", .string "x"), ("b", .string "y")] [1]
        = some "  a :[string] x  b :[string] y" := by
  decide

/-- C4, on the code: the typed render fails on every `int32`, `int64` and
`float32` value, whatever the root flag and the offset, and so does the render of
a Map that holds one. -/
theorem writeMap_int32_int64_float32_fail (n : Int) (g : String) (root : Bool)
    (offset : List Int) :
    writeMap (.int32 n) root offset = none ∧ writeMap (.int64 n) root offset = none
    ∧ writeMap (.float32 g) root offset = none
    ∧ StringIndent [("n", .int64 7)] [] = none
    ∧ writeMap (.slice [.int32 7]) false [0] = none := by
  refine ⟨by rw [writeMap], by rw [writeMap], by rw [writeMap], by decide, by decide⟩

/-- C6, on the code: the untyped render of an integer carries the tag `[?]`. -/
theorem writeMapNoTypes_int (n : Int) (root : Bool) (offset : List Int) :
    writeMapNoTypes (.int n) root offset = "[?] " ++ Itoa n
    ∧ writeMapNoTypes (.int 5) false [] = "[?] 5" := by
  constructor
  · rw [writeMapNoTypes]; rfl
  · decide

/-- C7: a string scalar renders as `"[string] " ++ s` in typed mode and as `s`
itself in untyped mode, for every root flag and offset; so `"hello"` gives
`"[string] hello"` and `"hello"`, and the empty string and a string with a line
break are passed through unchanged. -/
theorem writeMap_string (s : String) (root : Bool) (offset : List Int) :
    writeMap (.string s) root offset = some ("[string] " ++ s)
    ∧ writeMapNoTypes (.string s) root offset = s
    ∧ writeMap (.string "hello") root offset = some "[string] hello"
    ∧ writeMapNoTypes (.string "hello") root offset = "hello"
    ∧ writeMap (.string "") root offset = some "[string] "
    ∧ writeMap (.string "a\nb") root offset = some "[string] a\nb" := by
  refine ⟨by rw [writeMap], by rw [writeMapNoTypes], ?_, by rw [writeMapNoTypes], ?_, ?_⟩ <;>
    (rw [writeMap]; rfl)

/-- C8: independently of the root flag and the offset, nil renders as
`"[nil] nil"` (typed) and `"nil"` (untyped), and a boolean as `"[bool] true"` or
`"[bool] false"` (typed) and `"true"` or `"false"` (untyped). -/
theorem writeMap_nil_bool (root : Bool) (offset : List Int) :
    writeMap .nil root offset = some "[nil] nil"
    ∧ writeMapNoTypes .nil root offset = "nil"
    ∧ writeMap (.bool true) root offset = some "[bool] true"
    ∧ writeMap (.bool false) root offset = some "[bool] false"
    ∧ writeMapNoTypes (.bool true) root offset = "true"
    ∧ writeMapNoTypes (.bool false) root offset = "false" := by
  refine ⟨by rw [writeMap], by rw [writeMapNoTypes], ?_, ?_, ?_, ?_⟩
  · rw [writeMap]; rfl
  · rw [writeMap]; rfl
  · rw [writeMapNoTypes]; rfl
  · rw [writeMapNoTypes]; rfl

theorem normalize_up (k : Nat) : ∀ (fuel n d : Nat) (e : Int), 0 < d → 100 * d ≤ n →
    n < 1000 * d * 10 ^ k → k ≤ fuel → Normalized (normalize fuel n d e) := by
  induction k with
  | zero =>
    intro fuel n d e hd hlo hhi _
    have hhi' : n < 1000 * d := by simpa using hhi
    cases fuel with
    | zero => exact ⟨hlo, hhi', hd⟩
    | succ f =>
      rw [normalize, if_neg (by omega), if_neg (by omega)]
      exact ⟨hlo, hhi', hd⟩
  | succ k ih =>
    intro fuel n d e hd hlo hhi hk
    obtain ⟨f, rfl⟩ : ∃ f, fuel = f + 1 := ⟨fuel - 1, by omega⟩
    rw [normalize]
    by_cases h : 1000 * d ≤ n
    · rw [if_pos h]
      apply ih f n (10 * d) (e + 1) (by omega) (by omega) _ (by omega)
      calc n < 1000 * d * 10 ^ (k + 1) := hhi
        _ = 1000 * (10 * d) * 10 ^ k := by ring
    · rw [if_neg h, if_neg (by omega)]
      exact ⟨hlo, (by omega : n < 1000 * d), hd⟩

theorem normalize_down (k : Nat) : ∀ (fuel n d : Nat) (e : Int), 0 < d → n < 1000 * d →
    100 * d ≤ n * 10 ^ k → k ≤ fuel → Normalized (normalize fuel n d e) := by
  induction k with
  | zero =>
    intro fuel n d e hd hhi hlo _
    have hlo' : 100 * d ≤ n := by simpa using hlo
    cases fuel with
    | zero => exact ⟨hlo', hhi, hd⟩
    | succ f =>
      rw [normalize, if_neg (by omega), if_neg (by omega)]
      exact ⟨hlo', hhi, hd⟩
  | succ k ih =>
    intro fuel n d e hd hhi hlo hk
    obtain ⟨f, rfl⟩ : ∃ f, fuel = f + 1 := ⟨fuel - 1, by omega⟩
    rw [normalize, if_neg (by omega)]
    by_cases h : n < 100 * d
    · rw [if_pos h]
      apply ih f (10 * n) d (e - 1) hd (by omega) _ (by omega)
      calc 100 * d ≤ n * 10 ^ (k + 1) := hlo
        _ = 10 * n * 10 ^ k := by ring
    · rw [if_neg h]
      exact ⟨(by omega : 100 * d ≤ n), hhi, hd⟩

theorem normalize_exp (fuel : Nat) : ∀ (n d : Nat) (e : Int),
    e - fuel ≤ (normalize fuel n d e).2.2 ∧ (normalize fuel n d e).2.2 ≤ e + fuel := by
  induction fuel with
  | zero => intro n d e; simp [normalize]
  | succ f ih =>
    intro n d e
    rw [normalize]
    split
    · have := ih n (10 * d) (e + 1)
      push_cast
      omega
    · split
      · have := ih (10 * n) d (e - 1)
        push_cast
        omega
      · push_cast
        constructor <;> simp <;> omega

theorem normalize_ok (n d : Nat) (e : Int) (hn : 1 ≤ n) (hn' : n < 2 ^ 1024) (hd : 1 ≤ d)
    (hd' : d ≤ 2 ^ 1074) : Normalized (normalize 700 n d e) := by
  by_cases h : 100 * d ≤ n
  · apply normalize_up 306 700 n d e hd h _ (by omega)
    have h1 : (2 : Nat) ^ 1024 < 1000 * 10 ^ 306 := by norm_num
    calc n < 1000 * 10 ^ 306 := lt_trans hn' h1
      _ ≤ 1000 * d * 10 ^ 306 := by
        have := Nat.mul_le_mul_left (1000 * 10 ^ 306) hd
        calc 1000 * 10 ^ 306 = 1000 * 10 ^ 306 * 1 := by ring
          _ ≤ 1000 * 10 ^ 306 * d := this
          _ = 1000 * d * 10 ^ 306 := by ring
  · apply normalize_down 326 700 n d e hd (by omega) _ (by omega)
    have h1 : 100 * (2 : Nat) ^ 1074 ≤ 10 ^ 326 := by norm_num
    calc 100 * d ≤ 100 * 2 ^ 1074 := Nat.mul_le_mul_left _ hd'
      _ ≤ 10 ^ 326 := h1
      _ = 1 * 10 ^ 326 := by ring
      _ ≤ n * 10 ^ 326 := Nat.mul_le_mul_right _ hn

theorem round3_range (n d : Nat) (e : Int) (h : Normalized (n, d, e)) :
    100 ≤ (round3 n d e).1 ∧ (round3 n d e).1 ≤ 999 ∧
      e ≤ (round3 n d e).2 ∧ (round3 n d e).2 ≤ e + 1 := by
  obtain ⟨h1, h2, h3⟩ := h
  simp only at h1 h2 h3
  have hq1 : 100 ≤ n / d := (Nat.le_div_iff_mul_le h3).2 h1
  have hq2 : n / d < 1000 := (Nat.div_lt_iff_lt_mul h3).2 h2
  unfold round3
  simp only
  split <;> split <;> simp <;> omega

theorem fmtExp_digits (k : Nat) (h : k < 1000) :
    2 ≤ (fmtExp k).data.length ∧ ∀ c ∈ (fmtExp k).data, c.isDigit = true := by
  unfold fmtExp
  split
  · have := (digitChar_facts k (by omega)).1
    simp [this]
  · split
    · have h1 := (digitChar_facts (k / 10) (by omega)).1
      have h2 := (digitChar_facts (k % 10) (by omega)).1
      simp [h1, h2]
    · have h1 := (digitChar_facts (k / 100) (by omega)).1
      have h2 := (digitChar_facts (k / 10 % 10) (by omega)).1
      have h3 := (digitChar_facts (k % 10) (by omega)).1
      simp [h1, h2, h3]

theorem sciDigits_fmtE (q : Nat) (e : Int) (hq : 100 ≤ q ∧ q ≤ 999) (he : e.natAbs < 1000) :
    sciDigits (fmtE false q e).data = true ∧ sciLeading (fmtE false q e).data = true := by
  obtain ⟨hl, ha⟩ := fmtExp_digits e.natAbs he
  have h1 := digitChar_facts (q / 100 % 10) (by omega)
  have h2 := (digitChar_facts (q / 10 % 10) (by omega)).1
  have h3 := (digitChar_facts (q % 10) (by omega)).1
  have hne : Nat.digitChar (q / 100 % 10) ≠ '0' := fun h => by
    have := h1.2.2 h
    omega
  simp only [fmtE, String.data_append]
  constructor
  · simp [sciDigits, h1.1, h2, h3]
    exact ⟨⟨le_or_lt 0 e, hl⟩, ha⟩
  · simp [sciLeading, hne]

theorem fmtE_neg (q : Nat) (e : Int) :
    (fmtE true q e).data = '-' :: (fmtE false q e).data := by
  simp [fmtE, String.data_append]

theorem isScientific_fmtE (neg : Bool) (q : Nat) (e : Int) (hq : 100 ≤ q ∧ q ≤ 999)
    (he : e.natAbs < 1000) :
    isScientific (fmtE neg q e) = true ∧ isNormalized (fmtE neg q e) = true := by
  obtain ⟨h, h'⟩ := sciDigits_fmtE q e hq he
  cases neg with
  | false => simp [isScientific, isNormalized, String.toList, h, h']
  | true =>
    unfold isScientific isNormalized
    simp only [String.toList]
    rw [fmtE_neg]
    simp [h, h']

theorem isScientific_zero (neg : Bool) :
    isScientific (fmtE neg 0 0) = true ∧ isNormalized (fmtE neg 0 0) = true := by
  cases neg <;> decide

theorem isScientific_round (neg : Bool) (m a b : Nat) (hm : 1 ≤ m) (hm' : m < 2 ^ 53)
    (ha : a ≤ 971) (hb : b ≤ 1074) :
    isScientific (fmtE neg
      (round3 (normalize 700 (m * 2 ^ a) (2 ^ b) 2).1 (normalize 700 (m * 2 ^ a) (2 ^ b) 2).2.1
        (normalize 700 (m * 2 ^ a) (2 ^ b) 2).2.2).1
      (round3 (normalize 700 (m * 2 ^ a) (2 ^ b) 2).1 (normalize 700 (m * 2 ^ a) (2 ^ b) 2).2.1
        (normalize 700 (m * 2 ^ a) (2 ^ b) 2).2.2).2) = true
    ∧ isNormalized (fmtE neg
      (round3 (normalize 700 (m * 2 ^ a) (2 ^ b) 2).1 (normalize 700 (m * 2 ^ a) (2 ^ b) 2).2.1
        (normalize 700 (m * 2 ^ a) (2 ^ b) 2).2.2).1
      (round3 (normalize 700 (m * 2 ^ a) (2 ^ b) 2).1 (normalize 700 (m * 2 ^ a) (2 ^ b) 2).2.1
        (normalize 700 (m * 2 ^ a) (2 ^ b) 2).2.2).2) = true := by
  have h2a : 1 ≤ 2 ^ a := Nat.one_le_two_pow
  have h2a' : 2 ^ a ≤ 2 ^ 971 := pow_le_pow_right₀ one_le_two ha
  have hn : 1 ≤ m * 2 ^ a := Nat.mul_le_mul hm h2a
  have hn' : m * 2 ^ a < 2 ^ 1024 := by
    calc m * 2 ^ a ≤ m * 2 ^ 971 := Nat.mul_le_mul_left _ h2a'
      _ < 2 ^ 53 * 2 ^ 971 := Nat.mul_lt_mul_of_pos_right hm' (pow_pos two_pos 971)
      _ = 2 ^ 1024 := by rw [← pow_add]
  have hd : 1 ≤ 2 ^ b := Nat.one_le_two_pow
  have hd' : 2 ^ b ≤ 2 ^ 1074 := pow_le_pow_right₀ one_le_two hb
  have hnorm := normalize_ok (m * 2 ^ a) (2 ^ b) 2 hn hn' hd hd'
  have hexp := normalize_exp 700 (m * 2 ^ a) (2 ^ b) 2
  clear hn hn' hd hd' h2a h2a'
  generalize normalize 700 (m * 2 ^ a) (2 ^ b) 2 = r at hnorm hexp ⊢
  have hr := round3_range r.1 r.2.1 r.2.2 hnorm
  generalize round3 r.1 r.2.1 r.2.2 = qe at hr ⊢
  apply isScientific_fmtE _ _ _ ⟨hr.1, hr.2.1⟩
  obtain ⟨_, _, h3, h4⟩ := hr
  obtain ⟨h5, h6⟩ := hexp
  push_cast at h5 h6
  omega

theorem Float64.exp_lt (x : Float64) : x.exp < 2048 := Nat.mod_lt _ (by norm_num)

theorem Float64.mant_lt (x : Float64) : x.mant < 2 ^ 52 := Nat.mod_lt _ (by positivity)

theorem isScientific_FormatFloat (x : Float64) :
    isScientific (FormatFloat x) = x.isFinite ∧ isNormalized (FormatFloat x) = x.isFinite := by
  unfold FormatFloat Float64.isFinite
  have hexp := x.exp_lt
  have hmant := x.mant_lt
  by_cases hx : x.exp = 2047
  · rw [if_pos hx]
    have : (x.exp != 2047) = false := by simp [hx]
    rw [this]
    split
    · exact ⟨by decide, by decide⟩
    · split <;> exact ⟨by decide, by decide⟩
  · rw [if_neg hx]
    have : (x.exp != 2047) = true := by simp [hx]
    rw [this]
    by_cases h0 : x.exp = 0
    · simp only [h0, if_true]
      by_cases hm : x.mant = 0
      · rw [if_pos hm]
        exact isScientific_zero _
      · rw [if_neg hm]
        exact isScientific_round _ _ _ _ (by omega) (by omega) (by omega) (by omega)
    · simp only [h0, if_false]
      rw [if_neg (by positivity)]
      have h53 : x.mant + 2 ^ 52 < 2 ^ 53 := by
        have : (2 : Nat) ^ 53 = 2 ^ 52 + 2 ^ 52 := by norm_num
        omega
      exact isScientific_round _ _ _ _ (by omega) h53 (by omega) (by omega)

theorem normalize_value (fuel : Nat) : ∀ (n d : Nat) (e : Int), 0 < d →
    ((normalize fuel n d e).1 : ℚ) / ((normalize fuel n d e).2.1 : ℚ)
        * (10 : ℚ) ^ ((normalize fuel n d e).2.2 - 2)
      = (n : ℚ) / (d : ℚ) * (10 : ℚ) ^ (e - 2) := by
  induction fuel with
  | zero => intro n d e _; rfl
  | succ f ih =>
    intro n d e hd
    have hd' : (d : ℚ) ≠ 0 := by exact_mod_cast hd.ne'
    rw [normalize]
    split
    · rw [ih n (10 * d) (e + 1) (by omega)]
      have : e + 1 - 2 = (e - 2) + 1 := by ring
      rw [this, zpow_add_one₀ (by norm_num)]
      push_cast
      field_simp
      ring
    · split
      · rw [ih (10 * n) d (e - 1) hd]
        have : e - 1 - 2 = (e - 2) - 1 := by ring
        rw [this, zpow_sub_one₀ (by norm_num)]
        push_cast
        field_simp
        ring
      · rfl

theorem round3_spec (n d : Nat) (e : Int) (h : Normalized (n, d, e)) :
    ∃ q0 : ℕ, |(q0 : ℚ) - (n : ℚ) / (d : ℚ)| ≤ 1 / 2 ∧
      (|(q0 : ℚ) - (n : ℚ) / (d : ℚ)| = 1 / 2 → q0 % 2 = 0) ∧
      (round3 n d e).1 = (if q0 = 1000 then 100 else q0) ∧
      (round3 n d e).2 = (if q0 = 1000 then e + 1 else e) := by
  obtain ⟨_, _, h3⟩ := h
  simp only at h3
  have hd : (0 : ℚ) < d := by exact_mod_cast h3
  have hnd : (n : ℚ) = (d : ℚ) * ((n / d : ℕ) : ℚ) + ((n % d : ℕ) : ℚ) := by
    exact_mod_cast (Nat.div_add_mod n d).symm
  have hr : n % d < d := Nat.mod_lt _ h3
  have hw : (n : ℚ) / d = ((n / d : ℕ) : ℚ) + ((n % d : ℕ) : ℚ) / d := by
    rw [hnd]
    field_simp
    ring
  have hr0 : (0 : ℚ) ≤ ((n % d : ℕ) : ℚ) / d := by positivity
  have hr1 : ((n % d : ℕ) : ℚ) / d < 1 := by
    rw [div_lt_one hd]
    exact_mod_cast hr
  by_cases hup : d < 2 * (n % d) ∨ (2 * (n % d) = d ∧ n / d % 2 = 1)
  · refine ⟨n / d + 1, ?_, ?_, ?_, ?_⟩
    · have h2 : (1 : ℚ) / 2 ≤ ((n % d : ℕ) : ℚ) / d := by
        rw [le_div_iff₀ hd]
        have : (d : ℚ) ≤ 2 * ((n % d : ℕ) : ℚ) := by
          rcases hup with h | h
          · exact_mod_cast h.le
          · exact_mod_cast h.1.ge
        linarith
      rw [hw]
      push_cast
      rw [abs_le]
      constructor <;> linarith
    · intro htie
      rw [hw] at htie
      push_cast at htie
      have habs : |((n / d : ℕ) : ℚ) + 1 - (((n / d : ℕ) : ℚ) + ((n % d : ℕ) : ℚ) / d)|
          = 1 - ((n % d : ℕ) : ℚ) / d := by
        rw [abs_of_nonneg] <;> linarith
      rw [habs] at htie
      have h2 : ((n % d : ℕ) : ℚ) / d = 1 / 2 := by linarith
      rw [div_eq_iff hd.ne'] at h2
      have h2' : 2 * (n % d) = d := by
        have : (2 : ℚ) * ((n % d : ℕ) : ℚ) = d := by linarith
        exact_mod_cast this
      rcases hup with h | h
      · omega
      · omega
    · simp only [round3, hup, if_true, if_false]
      split <;> rfl
    · simp only [round3, hup, if_true, if_false]
      split <;> rfl
  · refine ⟨n / d, ?_, ?_, ?_, ?_⟩
    · have h2 : ((n % d : ℕ) : ℚ) / d ≤ 1 / 2 := by
        rw [div_le_iff₀ hd]
        have : 2 * ((n % d : ℕ) : ℚ) ≤ (d : ℚ) := by
          have : 2 * (n % d) ≤ d := by
            by_contra hc
            exact hup (Or.inl (by omega))
          exact_mod_cast this
        linarith
      rw [hw, abs_le]
      constructor <;> linarith
    · intro htie
      rw [hw] at htie
      have habs : |((n / d : ℕ) : ℚ) - (((n / d : ℕ) : ℚ) + ((n % d : ℕ) : ℚ) / d)|
          = ((n % d : ℕ) : ℚ) / d := by
        rw [abs_of_nonpos] <;> linarith
      rw [habs] at htie
      rw [div_eq_iff hd.ne'] at htie
      have h2' : 2 * (n % d) = d := by
        have : (2 : ℚ) * ((n % d : ℕ) : ℚ) = d := by linarith
        exact_mod_cast this
      by_contra hodd
      exact hup (Or.inr ⟨h2', by omega⟩)
    · simp only [round3, hup, if_true, if_false]
      split <;> rfl
    · simp only [round3, hup, if_true, if_false]
      split <;> rfl

theorem ratio_eq_zpow (m : Nat) (e2 : Int) :
    ((m * 2 ^ e2.toNat : ℕ) : ℚ) / ((2 ^ (-e2).toNat : ℕ) : ℚ) = (m : ℚ) * (2 : ℚ) ^ e2 := by
  rcases le_total 0 e2 with h | h
  · have h1 : (-e2).toNat = 0 := by omega
    have h2 : e2 = (e2.toNat : ℤ) := (Int.toNat_of_nonneg h).symm
    rw [h1]
    conv_rhs => rw [h2, zpow_natCast]
    push_cast
    simp
  · have h1 : e2.toNat = 0 := by omega
    have h2 : e2 = -((-e2).toNat : ℤ) := by omega
    rw [h1]
    conv_rhs => rw [h2, zpow_neg, zpow_natCast]
    push_cast
    simp [div_eq_mul_inv]

theorem roundsTo_round (m a b : Nat) (hm : 1 ≤ m) (hm' : m < 2 ^ 53) (ha : a ≤ 971)
    (hb : b ≤ 1074) :
    RoundsTo (((m * 2 ^ a : ℕ) : ℚ) / ((2 ^ b : ℕ) : ℚ))
      (round3 (normalize 700 (m * 2 ^ a) (2 ^ b) 2).1 (normalize 700 (m * 2 ^ a) (2 ^ b) 2).2.1
        (normalize 700 (m * 2 ^ a) (2 ^ b) 2).2.2).1
      (round3 (normalize 700 (m * 2 ^ a) (2 ^ b) 2).1 (normalize 700 (m * 2 ^ a) (2 ^ b) 2).2.1
        (normalize 700 (m * 2 ^ a) (2 ^ b) 2).2.2).2 := by
  have h2a : 1 ≤ 2 ^ a := Nat.one_le_two_pow
  have h2a' : 2 ^ a ≤ 2 ^ 971 := pow_le_pow_right₀ one_le_two ha
  have hn : 1 ≤ m * 2 ^ a := Nat.mul_le_mul hm h2a
  have hn' : m * 2 ^ a < 2 ^ 1024 := by
    calc m * 2 ^ a ≤ m * 2 ^ 971 := Nat.mul_le_mul_left _ h2a'
      _ < 2 ^ 53 * 2 ^ 971 := Nat.mul_lt_mul_of_pos_right hm' (pow_pos two_pos 971)
      _ = 2 ^ 1024 := by rw [← pow_add]
  have hd : 1 ≤ 2 ^ b := Nat.one_le_two_pow
  have hd' : 2 ^ b ≤ 2 ^ 1074 := pow_le_pow_right₀ one_le_two hb
  have hnorm := normalize_ok (m * 2 ^ a) (2 ^ b) 2 hn hn' hd hd'
  have hval := normalize_value 700 (m * 2 ^ a) (2 ^ b) 2 hd
  have hpos : (0 : ℚ) < ((m * 2 ^ a : ℕ) : ℚ) / ((2 ^ b : ℕ) : ℚ) := by
    apply div_pos
    · exact_mod_cast hn
    · exact_mod_cast hd
  clear hn hn' hd hd' h2a h2a'
  generalize ((m * 2 ^ a : ℕ) : ℚ) / ((2 ^ b : ℕ) : ℚ) = v at hval hpos ⊢
  generalize normalize 700 (m * 2 ^ a) (2 ^ b) 2 = r at hnorm hval ⊢
  obtain ⟨q0, hq1, hq2, hq3, hq4⟩ := round3_spec r.1 r.2.1 r.2.2 hnorm
  obtain ⟨hlo, hhi, hdpos⟩ := hnorm
  have hdq : (0 : ℚ) < (r.2.1 : ℚ) := by exact_mod_cast hdpos
  have hu : (0 : ℚ) < (10 : ℚ) ^ (r.2.2 - 2) := by positivity
  have hv : v = (r.1 : ℚ) / (r.2.1 : ℚ) * (10 : ℚ) ^ (r.2.2 - 2) := by
    rw [hval]
    norm_num
  have hw : v / (10 : ℚ) ^ (r.2.2 - 2) = (r.1 : ℚ) / (r.2.1 : ℚ) := by
    rw [hv]
    field_simp
    ring
  have hw1 : (100 : ℚ) ≤ (r.1 : ℚ) / (r.2.1 : ℚ) := by
    rw [le_div_iff₀ hdq]
    exact_mod_cast hlo
  have hw2 : (r.1 : ℚ) / (r.2.1 : ℚ) < 1000 := by
    rw [div_lt_iff₀ hdq]
    exact_mod_cast hhi
  have he0 : (10 : ℚ) ^ r.2.2 = 100 * (10 : ℚ) ^ (r.2.2 - 2) := by
    have : (10 : ℚ) ^ (r.2.2 - 2 + 2) = (10 : ℚ) ^ (r.2.2 - 2) * (10 : ℚ) ^ (2 : ℤ) :=
      zpow_add₀ (by norm_num) _ _
    rw [sub_add_cancel] at this
    rw [this]
    norm_num
    ring
  have he1 : (10 : ℚ) ^ (r.2.2 + 1) = 1000 * (10 : ℚ) ^ (r.2.2 - 2) := by
    rw [zpow_add_one₀ (by norm_num), he0]
    ring
  refine Or.inr ⟨hpos, r.2.2, q0, ?_, ?_, ?_, ?_, hq3, hq4⟩
  · rw [he0, hv]
    exact mul_le_mul_of_nonneg_right hw1 hu.le
  · rw [he1, hv]
    exact mul_lt_mul_of_pos_right hw2 hu
  · rw [hw]; exact hq1
  · rw [hw]; exact hq2

theorem fmtExp_value (k : Nat) (h : k < 1000) :
    decimalValue (fmtExp k).data = k ∧ (2 < (fmtExp k).data.length →
      (fmtExp k).data.head? ≠ some '0') := by
  unfold fmtExp
  split
  · have h1 := (digitChar_facts k (by omega)).2.1
    simp [decimalValue, h1]
  · split
    · have h1 := (digitChar_facts (k / 10) (by omega)).2.1
      have h2 := (digitChar_facts (k % 10) (by omega)).2.1
      simp only [decimalValue, List.foldl_cons, List.foldl_nil, h1, h2, List.length_cons,
        List.length_nil]
      constructor
      · omega
      · intro hc; omega
    · have h1 := digitChar_facts (k / 100) (by omega)
      have h2 := (digitChar_facts (k / 10 % 10) (by omega)).2.1
      have h3 := (digitChar_facts (k % 10) (by omega)).2.1
      simp only [decimalValue, List.foldl_cons, List.foldl_nil, h1.2.1, h2, h3]
      constructor
      · omega
      · intro _ hz
        have : Nat.digitChar (k / 100) = '0' := by simpa using hz
        have := h1.2.2 this
        omega

theorem fmtE_form (neg : Bool) (q : Nat) (e : Int) (hq : q ≤ 999) (he : e.natAbs < 1000) :
    ∃ ds : List Char,
      fmtE neg q e = (if neg then "-" else "") ++
        String.mk ([Nat.digitChar (q / 100), '.', Nat.digitChar (q / 10 % 10),
          Nat.digitChar (q % 10), 'e', if e < 0 then '-' else '+'] ++ ds)
      ∧ 2 ≤ ds.length ∧ (∀ c ∈ ds, c.isDigit = true) ∧ decimalValue ds = e.natAbs
      ∧ (2 < ds.length → ds.head? ≠ some '0') := by
  obtain ⟨hl, hd⟩ := fmtExp_digits e.natAbs he
  obtain ⟨hv, hh⟩ := fmtExp_value e.natAbs he
  refine ⟨(fmtExp e.natAbs).data, ?_, hl, hd, hv, hh⟩
  have hq' : q / 100 % 10 = q / 100 := Nat.mod_eq_of_lt (by omega)
  apply String.ext
  simp [fmtE, String.data_append, hq']

theorem finite_form (neg : Bool) (m a b : Nat) (hm : 1 ≤ m) (hm' : m < 2 ^ 53) (ha : a ≤ 971)
    (hb : b ≤ 1074) (v : ℚ) (hv : ((m * 2 ^ a : ℕ) : ℚ) / ((2 ^ b : ℕ) : ℚ) = v) :
    ∃ (q : ℕ) (e : ℤ) (ds : List Char),
      fmtE neg
          (round3 (normalize 700 (m * 2 ^ a) (2 ^ b) 2).1 (normalize 700 (m * 2 ^ a) (2 ^ b) 2).2.1
            (normalize 700 (m * 2 ^ a) (2 ^ b) 2).2.2).1
          (round3 (normalize 700 (m * 2 ^ a) (2 ^ b) 2).1 (normalize 700 (m * 2 ^ a) (2 ^ b) 2).2.1
            (normalize 700 (m * 2 ^ a) (2 ^ b) 2).2.2).2
        = (if neg then "-" else "") ++
          String.mk ([Nat.digitChar (q / 100), '.', Nat.digitChar (q / 10 % 10),
            Nat.digitChar (q % 10), 'e', if e < 0 then '-' else '+'] ++ ds)
      ∧ q ≤ 999 ∧ 2 ≤ ds.length ∧ (∀ c ∈ ds, c.isDigit = true) ∧ decimalValue ds = e.natAbs
      ∧ (2 < ds.length → ds.head? ≠ some '0') ∧ RoundsTo v q e := by
  have hrt := roundsTo_round m a b hm hm' ha hb
  rw [hv] at hrt
  have h2a : 1 ≤ 2 ^ a := Nat.one_le_two_pow
  have h2a' : 2 ^ a ≤ 2 ^ 971 := pow_le_pow_right₀ one_le_two ha
  have hn : 1 ≤ m * 2 ^ a := Nat.mul_le_mul hm h2a
  have hn' : m * 2 ^ a < 2 ^ 1024 := by
    calc m * 2 ^ a ≤ m * 2 ^ 971 := Nat.mul_le_mul_left _ h2a'
      _ < 2 ^ 53 * 2 ^ 971 := Nat.mul_lt_mul_of_pos_right hm' (pow_pos two_pos 971)
      _ = 2 ^ 1024 := by rw [← pow_add]
  have hd : 1 ≤ 2 ^ b := Nat.one_le_two_pow
  have hd' : 2 ^ b ≤ 2 ^ 1074 := pow_le_pow_right₀ one_le_two hb
  have hnorm := normalize_ok (m * 2 ^ a) (2 ^ b) 2 hn hn' hd hd'
  have hexp := normalize_exp 700 (m * 2 ^ a) (2 ^ b) 2
  clear hn hn' hd hd' h2a h2a' hv
  generalize normalize 700 (m * 2 ^ a) (2 ^ b) 2 = r at hnorm hexp hrt ⊢
  have hr := round3_range r.1 r.2.1 r.2.2 hnorm
  generalize round3 r.1 r.2.1 r.2.2 = qe at hr hrt ⊢
  have he : qe.2.natAbs < 1000 := by
    obtain ⟨_, _, h3, h4⟩ := hr
    obtain ⟨h5, h6⟩ := hexp
    push_cast at h5 h6
    omega
  obtain ⟨ds, h1, h2, h3, h4, h5⟩ := fmtE_form neg qe.1 qe.2 hr.2.1 he
  exact ⟨qe.1, qe.2, ds, h1, hr.2.1, h2, h3, h4, h5, hrt⟩

theorem FormatFloat_finite (x : Float64) (hf : x.isFinite = true) :
    ∃ (q : ℕ) (e : ℤ) (ds : List Char),
      FormatFloat x = (if x.neg then "-" else "") ++
        String.mk ([Nat.digitChar (q / 100), '.', Nat.digitChar (q / 10 % 10),
          Nat.digitChar (q % 10), 'e', if e < 0 then '-' else '+'] ++ ds)
      ∧ q ≤ 999 ∧ 2 ≤ ds.length ∧ (∀ c ∈ ds, c.isDigit = true) ∧ decimalValue ds = e.natAbs
      ∧ (2 < ds.length → ds.head? ≠ some '0') ∧ RoundsTo x.magnitude q e := by
  have hexp := x.exp_lt
  have hmant := x.mant_lt
  have hx : x.exp ≠ 2047 := by
    intro h
    simp [Float64.isFinite, h] at hf
  unfold FormatFloat Float64.magnitude
  rw [if_neg hx]
  by_cases h0 : x.exp = 0
  · simp only [h0, if_true]
    by_cases hm : x.mant = 0
    · rw [if_pos hm]
      obtain ⟨ds, h1, h2, h3, h4, h5⟩ := fmtE_form x.neg 0 0 (by omega) (by decide)
      refine ⟨0, 0, ds, h1, by omega, h2, h3, h4, h5, Or.inl ⟨?_, rfl, rfl⟩⟩
      simp [hm]
    · rw [if_neg hm]
      exact finite_form _ _ _ _ (by omega) (by omega) (by omega) (by omega) _
        (ratio_eq_zpow x.mant (-1074))
  · simp only [h0, if_false]
    rw [if_neg (by positivity)]
    have h53 : x.mant + 2 ^ 52 < 2 ^ 53 := by
      have : (2 : Nat) ^ 53 = 2 ^ 52 + 2 ^ 52 := by norm_num
      omega
    refine finite_form _ _ _ _ (by omega) h53 (by omega) (by omega) _ ?_
    rw [ratio_eq_zpow]
    push_cast
    rfl

/-- The bit pattern `0x400921F9F01B866E` is the `float64` nearest to `3.14159`:
its value `m / 2^51` differs from `3.14159` by at most half a unit in the last
place, `2^-52`. -/
theorem float64_314159_nearest :
    (⟨4614256650576692846⟩ : Float64).exp = 1024 ∧
      (⟨4614256650576692846⟩ : Float64).neg = false ∧
      2 * (314159 * 2 ^ 51 - ((⟨4614256650576692846⟩ : Float64).mant + 2 ^ 52) * 100000) ≤ 100000 ∧
      ((⟨4614256650576692846⟩ : Float64).mant + 2 ^ 52) * 100000 ≤ 314159 * 2 ^ 51 := by
  decide

/-- C9, as stated, fails at NaN: the render of the `float64` NaN is `NaN`, which
is not of the form `d.dde±dd`. -/
theorem writeMap_float64_NaN :
    writeMapNoTypes (.float64 ⟨9221120237041090561⟩) false [] = "NaN"
    ∧ writeMap (.float64 ⟨9221120237041090561⟩) false [] = some "[float64] NaN"
    ∧ isScientific (writeMapNoTypes (.float64 ⟨9221120237041090561⟩) false []) = false := by
  decide

/-- C9, amended: for every `float64` `x`, root flag and offset the untyped render
is `FormatFloat x` and the typed render is `"[float64] "` followed by the same
text.  That text is in scientific notation (an optional minus sign, one digit, a
point, exactly two digits, `e`, a sign and at least two exponent digits) exactly
when `x` is finite, and its mantissa is then normalised; for the other values it
is `NaN` (non-zero fraction), `+Inf` or `-Inf` (by the sign bit).  For a finite
`x` the text is a `-` exactly when the sign bit of `x` is set, then the three
digits `q` and the exponent `e` (its sign, then the decimal digits of `|e|`, two
of them or three without a leading zero) that are the magnitude of `x` correctly
rounded to three significant digits, ties to even.  For `3.14159` the renders are
`3.14e+00` and `[float64] 3.14e+00`; `-1.5` gives `-1.50e+00`, `1.125` gives
`1.12e+00` and `999.5` gives `1.00e+03`. -/
theorem writeMap_float64 (x : Float64) (root : Bool) (offset : List Int) :
    writeMapNoTypes (.float64 x) root offset = FormatFloat x
    ∧ writeMap (.float64 x) root offset = some ("[float64] " ++ FormatFloat x)
    ∧ isScientific (FormatFloat x) = x.isFinite
    ∧ isNormalized (FormatFloat x) = x.isFinite
    ∧ (x.isFinite || FormatFloat x == "NaN" || FormatFloat x == "+Inf"
        || FormatFloat x == "-Inf") = true
    ∧ writeMapNoTypes (.float64 ⟨4614256650576692846⟩) root offset = "3.14e+00"
    ∧ writeMap (.float64 ⟨4614256650576692846⟩) root offset = some "[float64] 3.14e+00"
    ∧ (x.isFinite = true →
        ∃ (q : ℕ) (e : ℤ) (ds : List Char),
          FormatFloat x = (if x.neg then "-" else "") ++
            String.mk ([Nat.digitChar (q / 100), '.', Nat.digitChar (q / 10 % 10),
              Nat.digitChar (q % 10), 'e', if e < 0 then '-' else '+'] ++ ds)
          ∧ q ≤ 999 ∧ 2 ≤ ds.length ∧ (∀ c ∈ ds, c.isDigit = true)
          ∧ decimalValue ds = e.natAbs ∧ (2 < ds.length → ds.head? ≠ some '0')
          ∧ RoundsTo x.magnitude q e)
    ∧ (x.isFinite = false →
        FormatFloat x = if x.mant = 0 then (if x.neg then "-Inf" else "+Inf") else "NaN")
    ∧ writeMapNoTypes (.float64 ⟨13832806255468478464⟩) root offset = "-1.50e+00"
    ∧ writeMapNoTypes (.float64 ⟨4607745368753438720⟩) root offset = "1.12e+00"
    ∧ writeMapNoTypes (.float64 ⟨4652002910794678272⟩) root offset = "1.00e+03"
    ∧ writeMapNoTypes (.float64 ⟨9223372036854775808⟩) root offset = "-0.00e+00" := by
  refine ⟨by rw [writeMapNoTypes], by rw [writeMap], (isScientific_FormatFloat x).1,
    (isScientific_FormatFloat x).2, ?_, ?_, ?_, FormatFloat_finite x, ?_, ?_, ?_, ?_, ?_⟩
  · unfold FormatFloat Float64.isFinite
    by_cases hx : x.exp = 2047
    · rw [if_pos hx]
      split
      · simp
      · split <;> simp
    · simp [hx]
  · rw [writeMapNoTypes]; decide
  · rw [writeMap]; decide
  · intro hf
    have hx : x.exp = 2047 := by
      by_contra h
      simp [Float64.isFinite, h] at hf
    unfold FormatFloat
    rw [if_pos hx]
    by_cases hm : x.mant = 0
    · simp [hm]
    · simp [hm]
  · rw [writeMapNoTypes]; decide
  · rw [writeMapNoTypes]; decide
  · rw [writeMapNoTypes]; decide
  · rw [writeMapNoTypes]; decide

/-- Witness of C9 at `-1.5` (sign bit set, exponent field 1023, fraction `2^51`):
the value is finite, its magnitude is `3/2`, and the text is `-1.50e+00`. -/
theorem writeMap_float64_witness :
    (⟨13832806255468478464⟩ : Float64).isFinite = true
    ∧ (⟨13832806255468478464⟩ : Float64).neg = true
    ∧ (⟨13832806255468478464⟩ : Float64).magnitude = 3 / 2
    ∧ FormatFloat ⟨13832806255468478464⟩ = "-1.50e+00"
    ∧ ∃ (q : ℕ) (e : ℤ) (ds : List Char),
        FormatFloat ⟨13832806255468478464⟩ =
          (if (⟨13832806255468478464⟩ : Float64).neg then "-" else "") ++
            String.mk ([Nat.digitChar (q / 100), '.', Nat.digitChar (q / 10 % 10),
              Nat.digitChar (q % 10), 'e', if e < 0 then '-' else '+'] ++ ds)
        ∧ q ≤ 999 ∧ 2 ≤ ds.length ∧ (∀ c ∈ ds, c.isDigit = true)
        ∧ decimalValue ds = e.natAbs ∧ (2 < ds.length → ds.head? ≠ some '0')
        ∧ RoundsTo (⟨13832806255468478464⟩ : Float64).magnitude q e :=
  ⟨by decide, by decide, by
      have h1 : (⟨13832806255468478464⟩ : Float64).exp = 1023 := by decide
      have h2 : (⟨13832806255468478464⟩ : Float64).mant = 2251799813685248 := by decide
      rw [Float64.magnitude, h1, h2]
      norm_num,
    by decide,
    (writeMap_float64 ⟨13832806255468478464⟩ false []).2.2.2.2.2.2.2.1 (by decide)⟩

/-- C12: a value outside the cases of the switches renders as `"[unknown] "`
followed by its `%#v` text in typed mode and as `"[?] "` followed by the same
text in untyped mode, for every root flag and offset; nothing else is added. -/
theorem writeMap_other (g : String) (root : Bool) (offset : List Int) :
    writeMap (.other g) root offset = some ("[unknown] " ++ g)
    ∧ writeMapNoTypes (.other g) root offset = "[?] " ++ g := by
  exact ⟨by rw [writeMap], by rw [writeMapNoTypes]⟩

theorem getD_fst (ml : mapList) (i : Nat) :
    (ml.getD i default).1 = (ml.map Prod.fst).getD i "" := by
  induction ml generalizing i with
  | nil => rfl
  | cons x xs ih =>
    cases i with
    | zero => rfl
    | succ i => simpa using ih i

theorem Less_iff_le (ml : mapList) (i j : Nat) :
    ml.Less i j = true ↔ (ml.getD i default).1 ≤ (ml.getD j default).1 := by
  unfold mapList.Less
  by_cases h : strGreater (ml.getD i default).1 (ml.getD j default).1 = true
  · have := (strGreater_iff _ _).1 h
    rw [if_pos h]
    exact ⟨fun hf => Bool.noConfusion hf, fun hle => absurd hle (not_le.2 this)⟩
  · have := not_lt.1 (fun hlt => h ((strGreater_iff _ _).2 hlt))
    rw [if_neg h]
    exact ⟨fun _ => this, fun _ => rfl⟩

/-- C13: for valid indices `i`, `j`, `Less(i, j)` holds exactly when the key at
`i` is less than or equal to the key at `j`; a list with the same keys and other
rendered values gives the same answers; and the relation is reflexive, total and
transitive. -/
theorem mapList_Less_iff (ml : mapList) (i j : Nat) (hi : i < ml.length) (hj : j < ml.length) :
    (ml.Less i j = true ↔ (ml.get ⟨i, hi⟩).1 ≤ (ml.get ⟨j, hj⟩).1)
    ∧ (∀ ml' : mapList, ml'.map Prod.fst = ml.map Prod.fst → ml'.Less i j = ml.Less i j)
    ∧ ml.Less i i = true
    ∧ (ml.Less i j = true ∨ ml.Less j i = true)
    ∧ (∀ k, k < ml.length → ml.Less i j = true → ml.Less j k = true → ml.Less i k = true) := by
  refine ⟨?_, ?_, ?_, ?_, ?_⟩
  · rw [Less_iff_le, List.getD_eq_getElem _ _ hi, List.getD_eq_getElem _ _ hj]
    rfl
  · intro ml' h
    have e : ∀ l : mapList, l.Less i j =
        (if strGreater ((l.map Prod.fst).getD i "") ((l.map Prod.fst).getD j "") then false
          else true) := by
      intro l
      rw [mapList.Less, getD_fst, getD_fst]
    rw [e ml', e ml, h]
  · rw [Less_iff_le]
  · rw [Less_iff_le, Less_iff_le]
    exact le_total _ _
  · intro k _
    rw [Less_iff_le, Less_iff_le, Less_iff_le]
    exact le_trans

/-- Witness of C13 on the list `[("b", "1"), ("a", "2")]` at the indices 0 and 1. -/
theorem mapList_Less_iff_witness :
    mapList.Less [("b", "1"), ("a", "2")] 0 1 = false
    ∧ mapList.Less [("b", "1"), ("a", "2")] 1 0 = true
    ∧ mapList.Less [("b", "zzz"), ("a", "")] 0 1 = mapList.Less [("b", "1"), ("a", "2")] 0 1 :=
  have h := mapList_Less_iff [("b", "1"), ("a", "2")] 0 1 (by decide) (by decide)
  ⟨by decide, by decide, h.2.1 [("b", "zzz"), ("a", "")] rfl⟩

/-- C15: when `mv.Json()` fails with `e`, `Copy` returns `(nil, e)` and leaves the
state as `Json` left it whatever `NewMapJson` is, so `NewMapJson` is not run;
when `Json` succeeds, `Copy` returns exactly what `NewMapJson` returns on the
serialised bytes; hence `Copy` reports an error exactly when `Json` fails or
`Json` succeeds and `NewMapJson` fails. -/
theorem Copy_propagates {σ ε β : Type} (Json : Map → σ → (β × Option ε) × σ)
    (NewMapJson : β → σ → (Option Map × Option ε) × σ) (mv : Map) (st : σ) :
    (∀ e, (Json mv st).1.2 = some e →
      Copy Json NewMapJson mv st = ((none, some e), (Json mv st).2)
      ∧ ∀ N : β → σ → (Option Map × Option ε) × σ,
          Copy Json N mv st = Copy Json NewMapJson mv st)
    ∧ ((Json mv st).1.2 = none →
      Copy Json NewMapJson mv st = NewMapJson (Json mv st).1.1 (Json mv st).2)
    ∧ ((Copy Json NewMapJson mv st).1.2 ≠ none ↔
        ((Json mv st).1.2 ≠ none ∨
          ((Json mv st).1.2 = none ∧
            (NewMapJson (Json mv st).1.1 (Json mv st).2).1.2 ≠ none))) := by
  unfold Copy
  rcases hJ : Json mv st with ⟨⟨j, jerr⟩, st1⟩
  cases jerr with
  | none =>
    refine ⟨fun e he => ?_, fun _ => rfl, ?_⟩
    · exact Option.noConfusion he
    · dsimp only
      exact ⟨fun h => Or.inr ⟨rfl, h⟩, fun h => h.elim (fun h' => absurd rfl h') (fun h' => h'.2)⟩
  | some e0 =>
    refine ⟨fun e he => ?_, fun h => Option.noConfusion h, ?_⟩
    · cases he
      exact ⟨rfl, fun _ => rfl⟩
    · dsimp only
      exact ⟨fun _ => Or.inl (fun h => Option.noConfusion h), fun _ h => Option.noConfusion h⟩

/-- Witness of C15: a serialiser that fails on the empty Map and a deserialiser
that would return a Map, both logging their calls; `Copy` returns `(nil, e)` and
the log shows the single call of `Json`. -/
theorem Copy_propagates_witness :
    Copy (fun (mv : Map) (log : List String) =>
          ((("" : String), if mv.isEmpty then some "empty" else none), log ++ ["Json"]))
        (fun (_ : String) (log : List String) => ((some [], none), log ++ ["NewMapJson"]))
        [] []
      = ((none, some "empty"), ["Json"]) :=
  ((Copy_propagates
      (fun (mv : Map) (log : List String) =>
        ((("" : String), if mv.isEmpty then some "empty" else none), log ++ ["Json"]))
      (fun (_ : String) (log : List String) => ((some [], none), log ++ ["NewMapJson"]))
      [] []).1 "empty" rfl).1

theorem writeMapNoTypes_map_join (m : Map) (root : Bool) (offset : List Int) :
    writeMapNoTypes (.map m) root offset =
      String.join ((sortSort (m.map
          (fun kv => (kv.1, writeMapNoTypes kv.2 false [indentOf offset + 1])))).map
        (entryText root (indentOf offset))) := by
  rw [writeMapNoTypes_map_eq, writeMapNoTypesCollect_eq, emitList_eq, String.empty_append]

theorem writeMap_map_join (m : Map) (root : Bool) (offset : List Int) :
    writeMap (.map m) root offset =
      (writeMapCollect m (indentOf offset)).map
        (fun list => String.join ((sortSort list).map (entryText root (indentOf offset)))) := by
  rw [writeMap_map_eq]
  cases writeMapCollect m (indentOf offset) with
  | none => rfl
  | some list => simp [emitList_eq]

theorem indentOf_length_ne_one (offset : List Int) (h : offset.length ≠ 1) :
    indentOf offset = 0 := by
  match offset with
  | [] => rfl
  | [x] => exact absurd rfl h
  | _ :: _ :: _ => rfl

theorem writeMapNoTypesSlice_toNat (l : List Value) (n : Int) (i : Nat) (s : String) :
    writeMapNoTypesSlice l n i s
      = s ++ String.join ((l.enumFrom i).map (fun ie =>
          "\n" ++ spaces (2 * n.toNat) ++ "[" ++ FormatInt ie.1 ++ "]"
            ++ (if ie.2.breaksLine then "\n" else "")
            ++ spaces (2 * n.toNat) ++ writeMapNoTypes ie.2 false [n + 1])) := by
  induction l generalizing i s with
  | nil => simp [writeMapNoTypesSlice, join_nil]
  | cons v rest ih =>
    rw [writeMapNoTypesSlice, ih, List.enumFrom_cons, List.map_cons, join_cons]
    simp only [indentLoop_eq]
    cases v.breaksLine <;> simp [String.append_assoc]

theorem writeMapSlice_toNat (l : List Value) (n : Int) (i : Nat) (s : String) :
    writeMapSlice l n i s
      = (concatM ((l.enumFrom i).map (fun ie =>
          (writeMap ie.2 false [n + 1]).map (fun r =>
            "\n" ++ spaces (2 * n.toNat) ++ "[item: " ++ FormatInt ie.1 ++ "]"
              ++ (if ie.2.breaksLine then "\n" else "")
              ++ spaces (2 * n.toNat) ++ r)))).map
        (fun t => s ++ t) := by
  induction l generalizing i s with
  | nil => simp [writeMapSlice, concatM]
  | cons v rest ih =>
    rw [writeMapSlice, List.enumFrom_cons, List.map_cons]
    cases hv : writeMap v false [n + 1] with
    | none => simp [concatM]
    | some r =>
      simp only [ih, Option.map_some', concatM]
      cases concatM ((rest.enumFrom (i + 1)).map (fun ie =>
          (writeMap ie.2 false [n + 1]).map (fun r =>
            "\n" ++ spaces (2 * n.toNat) ++ "[item: " ++ FormatInt ie.1 ++ "]"
              ++ (if ie.2.breaksLine then "\n" else "")
              ++ spaces (2 * n.toNat) ++ r))) with
      | none => rfl
      | some t =>
        simp only [Option.map_some', Option.some.injEq, indentLoop_eq]
        cases v.breaksLine <;> simp [String.append_assoc]

theorem spaces_zero : spaces 0 = "" := rfl

/-- C17: the offset is used only when exactly one value is passed: with an offset
list of any other length (none, two values `a`, `b`, three or more) both entry
points give what offset `0` gives; with the single offset `a` every entry of the
root Map is preceded by `2*a` spaces (none when `a` is negative) and the values
are rendered at depth `a+1`; and at every level whose depth `n` is `<= 0`, be it
a mapping or a sequence, root or nested, typed or untyped, the entries are written
with no indentation at all and their values are rendered at depth `n+1`. -/
theorem StringIndent_offset (mv : Map) (a b : Int) :
    StringIndent mv [] = StringIndent mv [0]
    ∧ StringIndent mv [a, b] = StringIndent mv [0]
    ∧ StringIndentNoTypeInfo mv [] = StringIndentNoTypeInfo mv [0]
    ∧ StringIndentNoTypeInfo mv [a, b] = StringIndentNoTypeInfo mv [0]
    ∧ StringIndent mv [a] =
        (writeMapCollect mv a).map (fun list =>
          String.join ((sortSort list).map
            (fun v => spaces (2 * a.toNat) ++ (v.1 ++ " :" ++ v.2))))
    ∧ StringIndentNoTypeInfo mv [a] =
        String.join ((sortSort (mv.map
            (fun kv => (kv.1, writeMapNoTypes kv.2 false [a + 1])))).map
          (fun v => spaces (2 * a.toNat) ++ (v.1 ++ " :" ++ v.2)))
    ∧ (∀ (s : String) (k : Nat), indentLoop s (-(k : Int)).toNat = s)
    ∧ StringIndent [("a", .map [("b", .nil)])] [1] = some "  a :\n    b :[nil] nil"
    ∧ StringIndent [("a", .map [("b", .nil)])] [-1] = some "a :\nb :[nil] nil"
    ∧ StringIndent [("a", .map [("b", .nil)])] [-2] = some "a :\nb :[nil] nil"
    ∧ (∀ offset : List Int, offset.length ≠ 1 →
        StringIndent mv offset = StringIndent mv [0]
        ∧ StringIndentNoTypeInfo mv offset = StringIndentNoTypeInfo mv [0])
    ∧ (∀ (n : Int), n ≤ 0 → ∀ (root : Bool) (m : Map) (l : List Value),
        writeMap (.map m) root [n] =
          (writeMapCollect m n).map (fun list =>
            String.join ((sortSort list).map
              (fun p => (if root then "" else "\n") ++ (p.1 ++ " :" ++ p.2))))
        ∧ writeMapNoTypes (.map m) root [n] =
          String.join ((sortSort (m.map
              (fun kv => (kv.1, writeMapNoTypes kv.2 false [n + 1])))).map
            (fun p => (if root then "" else "\n") ++ (p.1 ++ " :" ++ p.2)))
        ∧ writeMap (.slice l) root [n] =
          (concatM (l.enum.map (fun ie =>
            (writeMap ie.2 false [n + 1]).map (fun r =>
              "\n" ++ "[item: " ++ FormatInt ie.1 ++ "]"
                ++ (match ie.2 with
                    | .string _ => "\n"
                    | .float64 _ => "\n"
                    | .bool _ => "\n"
                    | _ => "")
                ++ r)))).map
            (fun t => "[[]interface\x7b\x7d]" ++ t)
        ∧ writeMapNoTypes (.slice l) root [n] =
          String.join (l.enum.map (fun ie =>
            "\n" ++ "[" ++ FormatInt ie.1 ++ "]"
              ++ (match ie.2 with
                  | .string _ => "\n"
                  | .float64 _ => "\n"
                  | .bool _ => "\n"
                  | _ => "")
              ++ writeMapNoTypes ie.2 false [n + 1]))) := by
  have he : ∀ n : Int, entryText true n = fun v => spaces (2 * n.toNat) ++ (v.1 ++ " :" ++ v.2) := by
    intro n
    funext v
    simp [entryText]
  refine ⟨?_, ?_, ?_, ?_, ?_, ?_, ?_, by decide, by decide, by decide, ?_, ?_⟩
  · simp only [StringIndent, writeMap_map_eq, indentOf]
  · simp only [StringIndent, writeMap_map_eq, indentOf]
  · simp only [StringIndentNoTypeInfo, writeMapNoTypes_map_eq, indentOf]
  · simp only [StringIndentNoTypeInfo, writeMapNoTypes_map_eq, indentOf]
  · rw [StringIndent, writeMap_map_join]
    simp only [indentOf, he]
  · rw [StringIndentNoTypeInfo, writeMapNoTypes_map_join]
    simp only [indentOf, he]
  · intro s k
    have : (-(k : Int)).toNat = 0 := by omega
    rw [this, indentLoop]
  · intro offset ho
    have h0 := indentOf_length_ne_one offset ho
    have h1 : indentOf [(0 : Int)] = 0 := rfl
    constructor
    · rw [StringIndent, StringIndent, writeMap_map_eq, writeMap_map_eq, h0, h1]
    · rw [StringIndentNoTypeInfo, StringIndentNoTypeInfo, writeMapNoTypes_map_eq,
        writeMapNoTypes_map_eq, h0, h1]
  · intro n hn root m l
    have hz : n.toNat = 0 := by omega
    have hentry : entryText root n
        = fun p => (if root then "" else "\n") ++ (p.1 ++ " :" ++ p.2) := by
      funext p
      cases root <;> simp [entryText, hz, spaces_zero]
    refine ⟨?_, ?_, ?_, ?_⟩
    · rw [writeMap_map_join]
      simp only [indentOf, hentry]
    · rw [writeMapNoTypes_map_join]
      simp only [indentOf, hentry]
    · rw [writeMap]
      simp only [indentOf]
      rw [writeMapSlice_toNat]
      simp only [hz, Nat.mul_zero, spaces_zero, String.append_empty, breaksLine_text,
        List.enum]
    · rw [writeMapNoTypes]
      simp only [indentOf]
      rw [writeMapNoTypesSlice_toNat]
      simp only [hz, Nat.mul_zero, spaces_zero, String.append_empty, String.empty_append,
        breaksLine_text, List.enum]

/-- Witness of C17: three offsets behave as offset `0`, and a sequence and a
mapping rendered at the depths `-1` and `0` carry no indentation. -/
theorem StringIndent_offset_witness :
    StringIndent [("a", .slice [.map [("b", .nil)]])] [5, 6, 7]
        = StringIndent [("a", .slice [.map [("b", .nil)]])] [0]
    ∧ StringIndentNoTypeInfo [("a", .slice [.map [("b", .nil)]])] [5, 6, 7]
        = StringIndentNoTypeInfo [("a", .slice [.map [("b", .nil)]])] [0]
    ∧ writeMapNoTypes (.slice [.nil, .string "s", .map [("b", .nil)]]) false [-1]
        = "\n[0]nil\n[1]\ns\n[2]\nb :nil"
    ∧ writeMap (.slice [.nil, .string "s"]) false [-1]
        = some "[[]interface\x7b\x7d]\n[item: 0][nil] nil\n[item: 1]\n[string] s" :=
  have h := StringIndent_offset [("a", .slice [.map [("b", .nil)]])] (-2) 0
  have h1 := h.2.2.2.2.2.2.2.2.2.2.1 [5, 6, 7] (by decide)
  have h2 := h.2.2.2.2.2.2.2.2.2.2.2 (-1) (by decide) false []
    [.nil, .string "s", .map [("b", .nil)]]
  have h3 := h.2.2.2.2.2.2.2.2.2.2.2 (-1) (by decide) false [] [.nil, .string "s"]
  ⟨h1.1, h1.2, h2.2.2.2.trans (by decide), h3.2.2.1.trans (by decide)⟩

theorem sortSort_singleton (x : String × String) : sortSort [x] = [x] := rfl

/-- C18: an empty mapping, `New()` included, renders as the empty string in both
modes for every root flag and offset; a single key whose value is the empty
mapping renders as the indentation, the key and `" :"` with nothing after it; and
in untyped mode a key whose value is the empty mapping, the empty string or the
empty sequence renders the same inside any mapping. -/
theorem writeMap_empty_map (root : Bool) (offset : List Int) (k : String) (m₁ m₂ : Map) :
    writeMap (.map New) root offset = some ""
    ∧ writeMapNoTypes (.map New) root offset = ""
    ∧ StringIndent New offset = some ""
    ∧ StringIndentNoTypeInfo New offset = ""
    ∧ writeMap (.map [(k, .map [])]) root offset =
        some ((if root then "" else "\n") ++ spaces (2 * (indentOf offset).toNat) ++ (k ++ " :"))
    ∧ writeMapNoTypes (.map [(k, .map [])]) root offset =
        (if root then "" else "\n") ++ spaces (2 * (indentOf offset).toNat) ++ (k ++ " :")
    ∧ writeMapNoTypes (.map (m₁ ++ (k, .map []) :: m₂)) root offset
        = writeMapNoTypes (.map (m₁ ++ (k, .string "") :: m₂)) root offset
    ∧ writeMapNoTypes (.map (m₁ ++ (k, .map []) :: m₂)) root offset
        = writeMapNoTypes (.map (m₁ ++ (k, .slice []) :: m₂)) root offset := by
  have h1 : ∀ r o, writeMapNoTypes (.map []) r o = "" := fun _ _ => rfl
  have h2 : ∀ r o, writeMapNoTypes (.string "") r o = "" := fun _ _ => rfl
  have h3 : ∀ r o, writeMapNoTypes (.slice []) r o = "" := fun _ _ => rfl
  have h4 : ∀ r o, writeMap (.map []) r o = some "" := fun _ _ => rfl
  refine ⟨rfl, rfl, rfl, rfl, ?_, ?_, ?_, ?_⟩
  · rw [writeMap_map_join, writeMapCollect, h4]
    simp [writeMapCollect, sortSort_singleton, join_cons, join_nil, entryText]
  · rw [writeMapNoTypes_map_join]
    simp [h1, sortSort_singleton, join_cons, join_nil, entryText]
  · rw [writeMapNoTypes_map_join, writeMapNoTypes_map_join]
    simp [h1, h2]
  · rw [writeMapNoTypes_map_join, writeMapNoTypes_map_join]
    simp [h1, h3]

theorem writeMapSlice_eq (l : List Value) (d i : Nat) (s : String) :
    writeMapSlice l (d : Int) i s
      = (concatM ((l.enumFrom i).map
          (fun ie => (writeMap ie.2 false [(d : Int) + 1]).map (itemText d ie)))).map
        (fun t => s ++ t) := by
  induction l generalizing i s with
  | nil => simp [writeMapSlice, concatM]
  | cons v rest ih =>
    rw [writeMapSlice, List.enumFrom_cons, List.map_cons]
    cases hv : writeMap v false [(d : Int) + 1] with
    | none => simp [concatM]
    | some r =>
      simp only [ih, Option.map_some', concatM]
      cases concatM ((rest.enumFrom (i + 1)).map
          (fun ie => (writeMap ie.2 false [(d : Int) + 1]).map (itemText d ie))) with
      | none => rfl
      | some t =>
        simp only [Option.map_some', Option.some.injEq, indentLoop_eq, itemText,
          breaksLine_text, Int.toNat_ofNat]
        cases v.breaksLine <;> simp [String.append_assoc]

/-- C11, as stated, fails on the sequence `["a", "b"]` at depth 0: the typed
render starts with the type tag of the sequence, so it is not the text the claim
gives. -/
theorem writeMap_slice_tag :
    writeMap (.slice [.string "a", .string "b"]) false [0]
        = some "[[]interface\x7b\x7d]\n[item: 0]\n[string] a\n[item: 1]\n[string] b"
    ∧ writeMap (.slice [.string "a", .string "b"]) false [0]
        ≠ some "\n[item: 0]\n[string] a\n[item: 1]\n[string] b" := by
  decide

/-- C11, amended: the typed render of a sequence at depth `d` is the type tag
`[[]interface{}]` followed, for each position `i` in order, by a line break,
`2*d` spaces, the label `[item: i]`, a line break exactly when the element is a
string, a float64 or a boolean, `2*d` spaces and the typed render of the element
at depth `d+1` (a failing render of an element fails the whole). -/
theorem writeMap_slice (l : List Value) (root : Bool) (d : Nat) :
    writeMap (.slice l) root [(d : Int)]
        = (concatM (l.enum.map (fun ie =>
            (writeMap ie.2 false [(d : Int) + 1]).map (fun r =>
              "\n" ++ spaces (2 * d) ++ "[item: " ++ FormatInt ie.1 ++ "]"
                ++ (match ie.2 with
                    | .string _ => "\n"
                    | .float64 _ => "\n"
                    | .bool _ => "\n"
                    | _ => "")
                ++ spaces (2 * d) ++ r)))).map
          (fun t => "[[]interface\x7b\x7d]" ++ t)
    ∧ writeMap (.slice [.string "a", .string "b"]) root [0]
        = some "[[]interface\x7b\x7d]\n[item: 0]\n[string] a\n[item: 1]\n[string] b" := by
  constructor
  · rw [writeMap]
    simp only [indentOf]
    rw [writeMapSlice_eq]
    rfl
  · rw [writeMap]
    decide

theorem digitChar_ne_newline (k : Nat) : Nat.digitChar k ≠ '\n' := by
  rcases Nat.lt_or_ge k 16 with h | h
  · interval_cases k <;> decide
  · have : Nat.digitChar k = '*' := by
      unfold Nat.digitChar
      repeat rw [if_neg (by omega)]
    rw [this]
    decide

theorem hasNewline_iff (s : String) : hasNewline s = false ↔ '\n' ∉ s.data := by
  simp [hasNewline]

theorem hasNewline_append (a b : String) :
    hasNewline (a ++ b) = (hasNewline a || hasNewline b) := by
  simp [hasNewline, String.data_append]

theorem endsWithNewline_of_not_hasNewline (s : String) (h : hasNewline s = false) :
    endsWithNewline s = false := by
  rw [hasNewline_iff] at h
  unfold endsWithNewline
  cases hl : s.data.getLast? with
  | none => rfl
  | some c =>
    have hc := List.mem_of_getLast?_eq_some hl
    have : c ≠ '\n' := fun e => h (e ▸ hc)
    simp [this]

theorem endsWithNewline_append (a b : String) (ha : endsWithNewline a = false)
    (hb : endsWithNewline b = false) : endsWithNewline (a ++ b) = false := by
  unfold endsWithNewline at *
  rw [String.data_append, List.getLast?_append]
  cases hl : b.data.getLast? with
  | none => simpa using ha
  | some c => simpa [hl] using hb

theorem endsWithNewline_append_right (a b : String) (hne : b ≠ "")
    (hb : endsWithNewline b = false) : endsWithNewline (a ++ b) = false := by
  unfold endsWithNewline at *
  rw [String.data_append, List.getLast?_append]
  cases hl : b.data.getLast? with
  | none =>
    exfalso
    apply hne
    apply String.ext
    exact List.getLast?_eq_none_iff.1 hl
  | some c => simpa [hl] using hb

theorem hasNewline_spaces (n : Nat) : hasNewline (spaces n) = false := by
  rw [hasNewline_iff]
  simp [spaces]

theorem hasNewline_FormatBool (b : Bool) : hasNewline (FormatBool b) = false := by
  cases b <;> decide

theorem hasNewline_repr (n : Nat) : hasNewline (Nat.repr n) = false := by
  obtain ⟨pre, e, _, hd, _, _⟩ := toDigitsCore_spec (n + 1) n [] (by omega)
  rw [hasNewline_iff]
  have hr : (Nat.repr n).data = pre := by
    simp [Nat.repr, Nat.toDigits, e, List.asString]
  rw [hr]
  intro hmem
  have := hd _ hmem
  revert this
  decide

theorem hasNewline_FormatInt (i : Int) : hasNewline (FormatInt i) = false := by
  unfold FormatInt
  split
  · rw [hasNewline_append, hasNewline_repr]
    decide
  · exact hasNewline_repr _

theorem hasNewline_fmtExp (k : Nat) : hasNewline (fmtExp k) = false := by
  rw [hasNewline_iff]
  unfold fmtExp
  split
  · simp [Ne.symm (digitChar_ne_newline k)]
  · split
    · simp [Ne.symm (digitChar_ne_newline _)]
    · simp [Ne.symm (digitChar_ne_newline _)]

theorem hasNewline_fmtE (neg : Bool) (q : Nat) (e : Int) : hasNewline (fmtE neg q e) = false := by
  unfold fmtE
  rw [hasNewline_append, hasNewline_append, hasNewline_fmtExp]
  have h1 : hasNewline (if neg = true then "-" else "") = false := by
    cases neg <;> decide
  have h2 : hasNewline (String.mk [Nat.digitChar (q / 100 % 10), '.', Nat.digitChar (q / 10 % 10),
      Nat.digitChar (q % 10), 'e', if e < 0 then '-' else '+']) = false := by
    rw [hasNewline_iff]
    have : (if e < 0 then '-' else '+') ≠ '\n' := by split <;> decide
    simp [Ne.symm (digitChar_ne_newline _), Ne.symm this]
  rw [h1, h2]
  rfl

theorem hasNewline_FormatFloat (x : Float64) : hasNewline (FormatFloat x) = false := by
  unfold FormatFloat
  split
  · split
    · decide
    · split <;> decide
  · dsimp only
    split_ifs <;> exact hasNewline_fmtE _ _ _

theorem spaces_ne_empty (n : Nat) (hn : 1 ≤ n) : spaces (2 * n) ≠ "" := by
  obtain ⟨k, rfl⟩ : ∃ k, n = k + 1 := ⟨n - 1, by omega⟩
  rw [spaces_succ]
  intro h
  have := congrArg String.length h
  simp at this
  exact absurd this.1 (by decide)

theorem endsWithNewline_indentLoop (s : String) (n : Nat) (hn : 1 ≤ n) :
    endsWithNewline (indentLoop s n) = false := by
  rw [indentLoop_eq]
  exact endsWithNewline_append_right _ _ (spaces_ne_empty n hn)
    (endsWithNewline_of_not_hasNewline _ (hasNewline_spaces _))

theorem endsWithNewline_entryText (root : Bool) (n : Int) (p : String × String)
    (h : endsWithNewline p.2 = false) : endsWithNewline (entryText root n p) = false := by
  unfold entryText
  rw [← String.append_assoc, ← String.append_assoc]
  apply endsWithNewline_append _ _ _ h
  exact endsWithNewline_append_right _ _ (by decide) (by decide)

theorem endsWithNewline_join (l : List String) (h : ∀ t ∈ l, endsWithNewline t = false) :
    endsWithNewline (String.join l) = false := by
  induction l with
  | nil => rfl
  | cons a rest ih =>
    rw [join_cons]
    exact endsWithNewline_append _ _ (h a (List.mem_cons_self _ _))
      (ih (fun t ht => h t (List.mem_cons_of_mem _ ht)))

theorem endsWithNewline_entries (root : Bool) (n : Int) (list : mapList)
    (h : ∀ p ∈ list, endsWithNewline p.2 = false) :
    endsWithNewline (String.join ((sortSort list).map (entryText root n))) = false := by
  apply endsWithNewline_join
  intro t ht
  obtain ⟨p, hp, rfl⟩ := List.mem_map.1 ht
  exact endsWithNewline_entryText root n p (h p ((sortSort_perm list).mem_iff.1 hp))

mutual
theorem plain_render (v : Value) (h : v.plain = true) (n : Int) (hn : 1 ≤ n) :
    (∃ r, writeMap v false [n] = some r ∧ endsWithNewline r = false)
      ∧ endsWithNewline (writeMapNoTypes v false [n]) = false :=
  match v with
  | .nil => ⟨⟨_, by rw [writeMap], by decide⟩, by rw [writeMapNoTypes]; decide⟩
  | .string s => by
    have hs : endsWithNewline s = false := by simpa [Value.plain] using h
    refine ⟨⟨_, by rw [writeMap], ?_⟩, by rw [writeMapNoTypes]; exact hs⟩
    exact endsWithNewline_append _ _ (by decide) hs
  | .int k => by
    have hk := endsWithNewline_of_not_hasNewline _ (hasNewline_FormatInt k)
    refine ⟨⟨_, by rw [writeMap], ?_⟩, ?_⟩
    · exact endsWithNewline_append _ _ (by decide) hk
    · rw [writeMapNoTypes]
      exact endsWithNewline_append _ _ (by decide) hk
  | .float64 x => by
    have hx := endsWithNewline_of_not_hasNewline _ (hasNewline_FormatFloat x)
    refine ⟨⟨_, by rw [writeMap], ?_⟩, by rw [writeMapNoTypes]; exact hx⟩
    exact endsWithNewline_append _ _ (by decide) hx
  | .bool b => by
    have hb := endsWithNewline_of_not_hasNewline _ (hasNewline_FormatBool b)
    refine ⟨⟨_, by rw [writeMap], ?_⟩, by rw [writeMapNoTypes]; exact hb⟩
    exact endsWithNewline_append _ _ (by decide) hb
  | .slice l => by
    have hl : plainSlice l = true := by simpa [Value.plain] using h
    constructor
    · rw [writeMap]
      exact (plain_slice l hl n hn 0 _ (by decide)).1
    · rw [writeMapNoTypes]
      exact (plain_slice l hl n hn 0 _ (by decide)).2
  | .map m => by
    have hm : plainMap m = true := by simpa [Value.plain] using h
    obtain ⟨⟨list, hc, hlist⟩, hu⟩ := plain_map m hm n (by omega)
    constructor
    · rw [writeMap_map_join]
      simp only [indentOf, hc, Option.map_some']
      exact ⟨_, rfl, endsWithNewline_entries false n list hlist⟩
    · rw [writeMapNoTypes_map_join, ← writeMapNoTypesCollect_eq]
      exact endsWithNewline_entries false _ _ hu
  | .int32 _ => by simp [Value.plain] at h
  | .int64 _ => by simp [Value.plain] at h
  | .float32 _ => by simp [Value.plain] at h
  | .other _ => by simp [Value.plain] at h
theorem plain_slice (l : List Value) (h : plainSlice l = true) (n : Int) (hn : 1 ≤ n)
    (i : Nat) (s : String) (hs : endsWithNewline s = false) :
    (∃ r, writeMapSlice l n i s = some r ∧ endsWithNewline r = false)
      ∧ endsWithNewline (writeMapNoTypesSlice l n i s) = false :=
  match l with
  | [] => ⟨⟨s, by rw [writeMapSlice], hs⟩, by rw [writeMapNoTypesSlice]; exact hs⟩
  | v :: rest => by
    have hv : v.plain = true ∧ plainSlice rest = true := by simpa [plainSlice] using h
    obtain ⟨⟨r, hr, hre⟩, hu⟩ := plain_render v hv.1 (n + 1) (by omega)
    have hn' : 1 ≤ n.toNat := by omega
    constructor
    · rw [writeMapSlice, hr]
      exact (plain_slice rest hv.2 n hn (i + 1) _
        (endsWithNewline_append _ _ (endsWithNewline_indentLoop _ _ hn') hre)).1
    · rw [writeMapNoTypesSlice]
      exact (plain_slice rest hv.2 n hn (i + 1) _
        (endsWithNewline_append _ _ (endsWithNewline_indentLoop _ _ hn') hu)).2
theorem plain_map (m : List (String × Value)) (h : plainMap m = true) (n : Int) (hn : 0 ≤ n) :
    (∃ list, writeMapCollect m n = some list ∧ ∀ p ∈ list, endsWithNewline p.2 = false)
      ∧ ∀ p ∈ writeMapNoTypesCollect m n, endsWithNewline p.2 = false :=
  match m with
  | [] => ⟨⟨[], by rw [writeMapCollect], by simp⟩, by simp [writeMapNoTypesCollect]⟩
  | (k, v) :: rest => by
    have hv : v.plain = true ∧ plainMap rest = true := by simpa [plainMap] using h
    obtain ⟨⟨r, hr, hre⟩, hu⟩ := plain_render v hv.1 (n + 1) (by omega)
    obtain ⟨⟨list, hc, hlist⟩, hu'⟩ := plain_map rest hv.2 n hn
    constructor
    · refine ⟨(k, r) :: list, by rw [writeMapCollect, hr, hc], ?_⟩
      intro p hp
      rcases List.mem_cons.1 hp with rfl | hp
      · exact hre
      · exact hlist p hp
    · rw [writeMapNoTypesCollect]
      intro p hp
      rcases List.mem_cons.1 hp with rfl | hp
      · exact hu
      · exact hu' p hp
end

/-- C14: for a Map built only from nil, strings, `int`s, float64s, booleans,
sequences and mappings in which no string scalar ends with a line break, and for
an initial indent that is not negative (no offset, or one offset `>= 0`),
`StringIndent` returns a string, and neither that string nor the string returned
by `StringIndentNoTypeInfo` ends with a line break. -/
theorem StringIndent_no_trailing_newline (mv : Map) (offset : List Int)
    (h : plainMap mv = true) (ho : 0 ≤ indentOf offset) :
    (∃ s, StringIndent mv offset = some s ∧ endsWithNewline s = false)
      ∧ endsWithNewline (StringIndentNoTypeInfo mv offset) = false := by
  obtain ⟨⟨list, hc, hlist⟩, hu⟩ := plain_map mv h (indentOf offset) ho
  constructor
  · rw [StringIndent, writeMap_map_join]
    simp only [hc, Option.map_some']
    exact ⟨_, rfl, endsWithNewline_entries true _ list hlist⟩
  · rw [StringIndentNoTypeInfo, writeMapNoTypes_map_join, ← writeMapNoTypesCollect_eq]
    exact endsWithNewline_entries true _ _ hu

/-- Witness of C14 on a Map with a nested mapping, a sequence holding the empty
string and a string with an inner line break, at offset 0. -/
theorem StringIndent_no_trailing_newline_witness :
    (∃ s, StringIndent [("k", .map [("a", .slice [.int 1, .string ""])]), ("z", .string "x\ny")] [0]
        = some s ∧ endsWithNewline s = false)
      ∧ endsWithNewline (StringIndentNoTypeInfo
          [("k", .map [("a", .slice [.int 1, .string ""])]), ("z", .string "x\ny")] [0]) = false :=
  StringIndent_no_trailing_newline _ [0] (by decide) (by decide)

theorem shiftChars_append (a b : List Char) :
    shiftChars (a ++ b) = shiftChars a ++ shiftChars b := by
  induction a with
  | nil => rfl
  | cons c cs ih =>
    rw [List.cons_append, shiftChars, shiftChars, ih]
    split <;> simp

theorem shiftChars_of_not_mem (l : List Char) (h : '\n' ∉ l) : shiftChars l = l := by
  induction l with
  | nil => rfl
  | cons c cs ih =>
    have hc : c ≠ '\n' := fun e => h (e ▸ List.mem_cons_self _ _)
    have hcs : '\n' ∉ cs := fun hm => h (List.mem_cons_of_mem _ hm)
    simp [shiftChars, hc, ih hcs]

theorem indentShift_append (a b : String) :
    indentShift (a ++ b) = indentShift a ++ indentShift b := by
  apply String.ext
  simp [indentShift, String.data_append, shiftChars_append]

theorem indentShift_of_not_hasNewline (s : String) (h : hasNewline s = false) :
    indentShift s = s := by
  rw [hasNewline_iff] at h
  apply String.ext
  simp [indentShift, shiftChars_of_not_mem _ h]

theorem indentShift_newline : indentShift "\n" = "\n" ++ "  " := by decide

theorem indentShift_join (l : List String) :
    indentShift (String.join l) = String.join (l.map indentShift) := by
  induction l with
  | nil => rfl
  | cons a rest ih => rw [join_cons, indentShift_append, ih, List.map_cons, join_cons]

theorem spaces_toNat_succ (n : Int) (hn : 0 ≤ n) :
    spaces (2 * (n + 1).toNat) = "  " ++ spaces (2 * n.toNat) := by
  have : (n + 1).toNat = n.toNat + 1 := by omega
  rw [this, spaces_succ]

theorem entryText_shift (n : Int) (hn : 0 ≤ n) (p : String × String)
    (hk : hasNewline p.1 = false) :
    entryText false (n + 1) (p.1, indentShift p.2) = indentShift (entryText false n p) := by
  have h1 : indentShift (" :" : String) = " :" := by decide
  simp only [entryText, spaces_toNat_succ n hn, indentShift_append, indentShift_newline,
    indentShift_of_not_hasNewline _ hk, indentShift_of_not_hasNewline _ (hasNewline_spaces _), h1,
    Bool.false_eq_true, if_false, String.append_assoc]

theorem insertDesc_map (f : String → String) (x : String × String) (l : mapList) :
    insertDesc (x.1, f x.2) (l.map (fun p => (p.1, f p.2)))
      = (insertDesc x l).map (fun p => (p.1, f p.2)) := by
  induction l with
  | nil => rfl
  | cons y ys ih =>
    simp only [List.map_cons, insertDesc]
    split
    · rfl
    · rw [ih]; rfl

theorem foldl_insertDesc_map (f : String → String) (l acc : mapList) :
    (l.map (fun p => (p.1, f p.2))).foldl (fun acc x => insertDesc x acc)
        (acc.map (fun p => (p.1, f p.2)))
      = (l.foldl (fun acc x => insertDesc x acc) acc).map (fun p => (p.1, f p.2)) := by
  induction l generalizing acc with
  | nil => rfl
  | cons x xs ih =>
    simp only [List.map_cons, List.foldl_cons]
    rw [insertDesc_map, ih]

/-- The order that `sortSort` produces depends on the keys only. -/
theorem sortSort_map (f : String → String) (l : mapList) :
    sortSort (l.map (fun p => (p.1, f p.2))) = (sortSort l).map (fun p => (p.1, f p.2)) := by
  rw [sortSort_eq, sortSort_eq]
  have := foldl_insertDesc_map f l []
  simp only [List.map_nil] at this
  rw [this, List.map_reverse]

theorem join_entries_shift (n : Int) (hn : 0 ≤ n) (list : mapList)
    (hk : ∀ p ∈ list, hasNewline p.1 = false) :
    String.join ((sortSort (list.map (fun p => (p.1, indentShift p.2)))).map
        (entryText false (n + 1)))
      = indentShift (String.join ((sortSort list).map (entryText false n))) := by
  rw [sortSort_map, indentShift_join, List.map_map, List.map_map]
  congr 1
  apply List.map_congr_left
  intro p hp
  exact entryText_shift n hn p (hk p ((sortSort_perm list).mem_iff.1 hp))

theorem acc_shift (s label : String) (n : Int) (hn : 0 ≤ n) (hl : hasNewline label = false) :
    indentLoop (indentLoop (indentShift s ++ "\n") (n + 1).toNat ++ label ++ "\n") (n + 1).toNat
      = indentShift (indentLoop (indentLoop (s ++ "\n") n.toNat ++ label ++ "\n") n.toNat) := by
  have : (n + 1).toNat = n.toNat + 1 := by omega
  simp only [indentLoop_eq, this, spaces_succ, indentShift_append, indentShift_newline,
    indentShift_of_not_hasNewline _ hl, indentShift_of_not_hasNewline _ (hasNewline_spaces _),
    String.append_assoc]

theorem hasNewline_label (pre : String) (i : Nat) (hp : hasNewline pre = false) :
    hasNewline (pre ++ FormatInt i ++ "]") = false := by
  rw [hasNewline_append, hasNewline_append, hp, hasNewline_FormatInt]
  decide

mutual
theorem shift_render (v : Value) (h : v.shiftable = true) (n : Int) (hn : 0 ≤ n) :
    (∃ r, writeMap v false [n] = some r ∧ writeMap v false [n + 1] = some (indentShift r))
      ∧ writeMapNoTypes v false [n + 1] = indentShift (writeMapNoTypes v false [n]) :=
  match v with
  | .nil => ⟨⟨_, by rw [writeMap], by rw [writeMap]; decide⟩, by
      rw [writeMapNoTypes, writeMapNoTypes]; decide⟩
  | .string s => by
    have hs : hasNewline s = false := by simpa [Value.shiftable] using h
    have ht : hasNewline ("[string] " ++ s) = false := by
      rw [hasNewline_append, hs]; decide
    refine ⟨⟨_, by rw [writeMap], ?_⟩, ?_⟩
    · rw [writeMap, indentShift_of_not_hasNewline _ ht]
    · rw [writeMapNoTypes, writeMapNoTypes, indentShift_of_not_hasNewline _ hs]
  | .int k => by
    have ht : hasNewline ("[int] " ++ Itoa k) = false := by
      rw [hasNewline_append, Itoa, hasNewline_FormatInt]; decide
    have hu : hasNewline ("[?] " ++ FormatInt k) = false := by
      rw [hasNewline_append, hasNewline_FormatInt]; decide
    refine ⟨⟨_, by rw [writeMap], ?_⟩, ?_⟩
    · rw [writeMap, indentShift_of_not_hasNewline _ ht]
    · rw [writeMapNoTypes, writeMapNoTypes, indentShift_of_not_hasNewline _ hu]
  | .float64 x => by
    have hx := hasNewline_FormatFloat x
    have ht : hasNewline ("[float64] " ++ FormatFloat x) = false := by
      rw [hasNewline_append, hx]; decide
    refine ⟨⟨_, by rw [writeMap], ?_⟩, ?_⟩
    · rw [writeMap, indentShift_of_not_hasNewline _ ht]
    · rw [writeMapNoTypes, writeMapNoTypes, indentShift_of_not_hasNewline _ hx]
  | .bool b => by
    have hb := hasNewline_FormatBool b
    have ht : hasNewline ("[bool] " ++ FormatBool b) = false := by
      rw [hasNewline_append, hb]; decide
    refine ⟨⟨_, by rw [writeMap], ?_⟩, ?_⟩
    · rw [writeMap, indentShift_of_not_hasNewline _ ht]
    · rw [writeMapNoTypes, writeMapNoTypes, indentShift_of_not_hasNewline _ hb]
  | .slice l => by
    have hl : shiftableSlice l = true := by simpa [Value.shiftable] using h
    obtain ⟨⟨r, h1, h2⟩, _⟩ := shift_slice l hl n hn 0 "[[]interface\x7b\x7d]"
    obtain ⟨_, hu⟩ := shift_slice l hl n hn 0 ""
    have e1 : indentShift "[[]interface\x7b\x7d]" = "[[]interface\x7b\x7d]" := by decide
    have e2 : indentShift "" = "" := by decide
    rw [e1] at h2
    rw [e2] at hu
    refine ⟨⟨r, ?_, ?_⟩, ?_⟩
    · rw [writeMap]; exact h1
    · rw [writeMap]; exact h2
    · rw [writeMapNoTypes, writeMapNoTypes]; exact hu
  | .map m => by
    have hm : shiftableMap m = true := by simpa [Value.shiftable] using h
    obtain ⟨⟨list, hc, hc', hk⟩, hu, hku⟩ := shift_map m hm n hn
    refine ⟨⟨String.join ((sortSort list).map (entryText false n)), ?_, ?_⟩, ?_⟩
    · rw [writeMap_map_join]
      simp only [indentOf, hc, Option.map_some']
    · rw [writeMap_map_join]
      simp only [indentOf, hc', Option.map_some']
      rw [join_entries_shift n hn list hk]
    · rw [writeMapNoTypes_map_join, writeMapNoTypes_map_join, ← writeMapNoTypesCollect_eq,
        ← writeMapNoTypesCollect_eq]
      simp only [indentOf]
      rw [hu, join_entries_shift n hn _ hku]
  | .int32 _ => by simp [Value.shiftable] at h
  | .int64 _ => by simp [Value.shiftable] at h
  | .float32 _ => by simp [Value.shiftable] at h
  | .other _ => by simp [Value.shiftable] at h
theorem shift_slice (l : List Value) (h : shiftableSlice l = true) (n : Int) (hn : 0 ≤ n)
    (i : Nat) (s : String) :
    (∃ r, writeMapSlice l n i s = some r
        ∧ writeMapSlice l (n + 1) i (indentShift s) = some (indentShift r))
      ∧ writeMapNoTypesSlice l (n + 1) i (indentShift s)
          = indentShift (writeMapNoTypesSlice l n i s) :=
  match l with
  | [] => ⟨⟨s, by rw [writeMapSlice], by rw [writeMapSlice]⟩, by
      rw [writeMapNoTypesSlice, writeMapNoTypesSlice]⟩
  | v :: rest => by
    have hv : (v.breaksLine = true ∧ v.shiftable = true) ∧ shiftableSlice rest = true := by
      simpa [shiftableSlice] using h
    obtain ⟨⟨r, hr, hr'⟩, hu⟩ := shift_render v hv.1.2 (n + 1) (by omega)
    constructor
    · obtain ⟨⟨rf, h1, h2⟩, _⟩ := shift_slice rest hv.2 n hn (i + 1)
        (indentLoop (indentLoop (s ++ "\n") n.toNat ++ ("[item: " ++ FormatInt i ++ "]") ++ "\n")
          n.toNat ++ r)
      refine ⟨rf, ?_, ?_⟩
      · rw [writeMapSlice, hr]
        simp only [if_pos hv.1.1]
        exact h1
      · rw [writeMapSlice, hr']
        simp only [if_pos hv.1.1]
        rw [indentShift_append, ← acc_shift s _ n hn (hasNewline_label "[item: " i (by decide))]
          at h2
        exact h2
    · obtain ⟨_, h3⟩ := shift_slice rest hv.2 n hn (i + 1)
        (indentLoop (indentLoop (s ++ "\n") n.toNat ++ ("[" ++ FormatInt i ++ "]") ++ "\n")
          n.toNat ++ writeMapNoTypes v false [n + 1])
      rw [writeMapNoTypesSlice, writeMapNoTypesSlice]
      simp only [if_pos hv.1.1]
      rw [indentShift_append, ← acc_shift s _ n hn (hasNewline_label "[" i (by decide)), ← hu]
        at h3
      exact h3
theorem shift_map (m : List (String × Value)) (h : shiftableMap m = true) (n : Int)
    (hn : 0 ≤ n) :
    (∃ list, writeMapCollect m n = some list
        ∧ writeMapCollect m (n + 1) = some (list.map (fun p => (p.1, indentShift p.2)))
        ∧ ∀ p ∈ list, hasNewline p.1 = false)
      ∧ writeMapNoTypesCollect m (n + 1)
          = (writeMapNoTypesCollect m n).map (fun p => (p.1, indentShift p.2))
      ∧ ∀ p ∈ writeMapNoTypesCollect m n, hasNewline p.1 = false :=
  match m with
  | [] => ⟨⟨[], by rw [writeMapCollect], by rw [writeMapCollect]; rfl, by simp⟩,
      by rw [writeMapNoTypesCollect, writeMapNoTypesCollect]; rfl,
      by simp [writeMapNoTypesCollect]⟩
  | (k, v) :: rest => by
    have hv : (hasNewline k = false ∧ v.shiftable = true) ∧ shiftableMap rest = true := by
      simpa [shiftableMap] using h
    obtain ⟨⟨r, hr, hr'⟩, hu⟩ := shift_render v hv.1.2 (n + 1) (by omega)
    obtain ⟨⟨list, hc, hc', hk⟩, hcu, hku⟩ := shift_map rest hv.2 n hn
    refine ⟨⟨(k, r) :: list, by rw [writeMapCollect, hr, hc], ?_, ?_⟩, ?_, ?_⟩
    · rw [writeMapCollect, hr', hc']
      rfl
    · intro p hp
      rcases List.mem_cons.1 hp with rfl | hp
      · exact hv.1.1
      · exact hk p hp
    · rw [writeMapNoTypesCollect, writeMapNoTypesCollect, hu, hcu]
      rfl
    · rw [writeMapNoTypesCollect]
      intro p hp
      rcases List.mem_cons.1 hp with rfl | hp
      · exact hv.1.1
      · exact hku p hp
end

/-- C16, as stated, fails on the sequence `[nil]` at depth 0: the element does not
start a new line, so the second indentation of the loop lands in the middle of the
line, after the label, and the render at depth 1 is not the shifted render at
depth 0; with a mapping as the element the added spaces end the label line. -/
theorem render_shift_fails :
    writeMapNoTypes (.slice [.nil]) false [0] = "\n[0]nil"
    ∧ indentShift (writeMapNoTypes (.slice [.nil]) false [0]) = "\n  [0]nil"
    ∧ writeMapNoTypes (.slice [.nil]) false [1] = "\n  [0]  nil"
    ∧ writeMap (.slice [.nil]) false [0] = some "[[]interface\x7b\x7d]\n[item: 0][nil] nil"
    ∧ writeMap (.slice [.nil]) false [1] = some "[[]interface\x7b\x7d]\n  [item: 0]  [nil] nil"
    ∧ writeMapNoTypes (.slice [.map [("a", .nil)]]) false [0] = "\n[0]\n  a :nil"
    ∧ writeMapNoTypes (.slice [.map [("a", .nil)]]) false [1] = "\n  [0]  \n    a :nil" := by
  decide

/-- C16, amended: for a tree built from nil, strings, `int`s, float64s, booleans,
sequences and mappings whose strings and keys contain no line break and in which
every element of every sequence is a string, a float64 or a boolean, and for
every depth `d >= 0`, the typed non-root render exists at depth `d` and at depth
`d+1`, and in both modes the render at depth `d+1` is the render at depth `d`
with two spaces inserted immediately after every line break and nothing else
changed. -/
theorem render_shift (v : Value) (h : v.shiftable = true) (d : Nat) :
    (∃ r, writeMap v false [(d : Int)] = some r
        ∧ writeMap v false [(d : Int) + 1] = some (indentShift r))
      ∧ writeMapNoTypes v false [(d : Int) + 1]
          = indentShift (writeMapNoTypes v false [(d : Int)]) :=
  shift_render v h d (Int.natCast_nonneg d)

/-- Witness of C16 on a mapping that holds a sequence of scalars and a nested
mapping, from depth 0 to depth 1. -/
theorem render_shift_witness :
    writeMapNoTypes
        (.map [("k", .slice [.string "a", .bool true]), ("n", .map [("x", .int 1)])]) false [1]
      = "\n  k :\n    [0]\n    a\n    [1]\n    true\n  n :\n    x :[?] 1"
    ∧ indentShift "\nk :\n  [0]\n  a\n  [1]\n  true\nn :\n  x :[?] 1"
      = "\n  k :\n    [0]\n    a\n    [1]\n    true\n  n :\n    x :[?] 1" :=
  have h := render_shift
    (.map [("k", .slice [.string "a", .bool true]), ("n", .map [("x", .int 1)])]) (by decide) 0
  ⟨h.2.trans (by decide), by decide⟩

end mxj
